import Mathlib

/-!
# Intrusive circular doubly-linked list (`dlinkedlist.h`)

A shallow embedding of the list algebra of `include/datastructure/list/dlinkedlist.h`.

* A `struct dlinkedlist_node*` is an address (`Node`, a natural number).
* The memory (`Mem`) gives the `next` and `prev` field of the node at every address and
  the value of the `int_least32_t` counter at every counter address.
* A `_INT_LEAST_32_T* size` argument is an `Option Nat`: `none` is `NULL`, `some c` the
  address of a counter.  Counters hold mathematical integers: signed overflow is undefined
  in C and is outside of this model.  A statement on the arithmetic done on a counter
  whose value is arbitrary therefore carries the condition that the operands and the
  result are in the range of `int_least32_t` (`InRange32`), where the arithmetic of the
  source is exact, and states that the result is in that range.
* Every C function becomes a function from the memory before the call to the memory after
  it, the statements translated one by one in program order.  The `ASSERT`s of the source
  expand to nothing unless `DEBUG` is defined and are not modelled.
* A loop that follows `next` pointers (`dlinkedlist_size`) takes a fuel argument and
  returns `none` when the fuel runs out.
-/

namespace DLinkedList

/-- Address of a `struct dlinkedlist_node`. -/
abbrev Node := Nat

/-- The memory: the two fields of every node and the value of every size counter. -/
structure Mem where
  /-- Field `next` of the node at an address. -/
  next : Node → Node
  /-- Field `prev` of the node at an address. -/
  prev : Node → Node
  /-- Value of the `int_least32_t` stored at a counter address. -/
  cell : Nat → Int

/-- The assignment `n->next = v`. -/
def Mem.setNext (m : Mem) (n v : Node) : Mem :=
  ⟨fun x => if x = n then v else m.next x, m.prev, m.cell⟩

/-- The assignment `n->prev = v`. -/
def Mem.setPrev (m : Mem) (n v : Node) : Mem :=
  ⟨m.next, fun x => if x = n then v else m.prev x, m.cell⟩

/-- The assignment `*c = v` on a counter. -/
def Mem.setCell (m : Mem) (c : Nat) (v : Int) : Mem :=
  ⟨m.next, m.prev, fun x => if x = c then v else m.cell x⟩

/-- Source: `dlinkedlist_init_head`. -/
def dlinkedlist_init_head (m : Mem) (head : Node) (size : Option Nat) : Mem :=
  let m1 := m.setNext head head
  let m2 := m1.setPrev head head
  match size with
  | some c => m2.setCell c 0
  | none => m2

/-- Source: `dlinkedlist_empty`. -/
def dlinkedlist_empty (m : Mem) (head : Node) : Bool :=
  m.next head == head && m.prev head == head

/-- The loop `for (node = ...; node != head; node = node->next) size++` of
`dlinkedlist_size`, entered with cursor `node` and count `size`. -/
def sizeLoop (m : Mem) (head : Node) : Nat → Node → Int → Option Int
  | 0, _, _ => none
  | fuel + 1, node, size =>
    if node ≠ head then sizeLoop m head fuel (m.next node) (size + 1) else some size

/-- Source: `dlinkedlist_size` (the `dlinkedlist_for_each` loop starts at `head->next`). -/
def dlinkedlist_size (fuel : Nat) (m : Mem) (head : Node) : Option Int :=
  sizeLoop m head fuel (m.next head) 0

/-- Source: `__dlinkedlist_add`. -/
def __dlinkedlist_add (m : Mem) (node prev next : Node) (size : Option Nat) : Mem :=
  let m1 := m.setNext node next
  let m2 := m1.setPrev node prev
  let m3 := m2.setNext prev node
  let m4 := m3.setPrev next node
  match size with
  | some c => m4.setCell c (m4.cell c + 1)
  | none => m4

/-- Source: `dlinkedlist_add_head`. -/
def dlinkedlist_add_head (m : Mem) (head node : Node) (size : Option Nat) : Mem :=
  __dlinkedlist_add m node head (m.next head) size

/-- Source: `dlinkedlist_add_tail`. -/
def dlinkedlist_add_tail (m : Mem) (head node : Node) (size : Option Nat) : Mem :=
  __dlinkedlist_add m node (m.prev head) head size

/-- Source: `dlinkedlist_add_after`. -/
def dlinkedlist_add_after (m : Mem) (node newnode : Node) (size : Option Nat) : Mem :=
  __dlinkedlist_add m newnode node (m.next node) size

/-- Source: `dlinkedlist_add_before`. -/
def dlinkedlist_add_before (m : Mem) (node newnode : Node) (size : Option Nat) : Mem :=
  __dlinkedlist_add m newnode (m.prev node) node size

/-- Source: `__dlinkedlist_remove`. -/
def __dlinkedlist_remove (m : Mem) (prev next : Node) (size : Option Nat) : Mem :=
  if dlinkedlist_empty m (m.prev next) then
    match size with
    | some c => m.setCell c 0
    | none => m
  else
    let m1 := m.setPrev next prev
    let m2 := m1.setNext prev next
    match size with
    | some c => m2.setCell c (m2.cell c - 1)
    | none => m2

/-- Source: `dlinkedlist_remove`. -/
def dlinkedlist_remove (m : Mem) (node : Node) (size : Option Nat) : Mem :=
  __dlinkedlist_remove m (m.prev node) (m.next node) size

/-- Source: `__dlinkedlist_splice`. -/
def __dlinkedlist_splice (m : Mem) (list prev next : Node)
    (listSize headSize : Option Nat) : Mem :=
  let first := m.next list
  let last := m.prev list
  let m1 := m.setNext prev first
  let m2 := m1.setPrev first prev
  let m3 := m2.setNext last next
  let m4 := m3.setPrev next last
  match headSize, listSize with
  | some h, some l => m4.setCell h (m4.cell h + m4.cell l)
  | _, _ => m4

/-- Source: `dlinkedlist_splice`. -/
def dlinkedlist_splice (m : Mem) (list head : Node) (listSize headSize : Option Nat) : Mem :=
  if dlinkedlist_empty m list then m
  else
    let m1 := __dlinkedlist_splice m list head (m.next head) listSize headSize
    dlinkedlist_init_head m1 list listSize

/-- Source: `dlinkedlist_singular`. -/
def dlinkedlist_singular (m : Mem) (head : Node) : Bool :=
  !dlinkedlist_empty m head && m.next head == m.prev head

/-- Source: `__dlinkedlist_split`.  The two sizes are recomputed by `dlinkedlist_size`
when both counters are supplied, hence the fuel. -/
def __dlinkedlist_split (fuel : Nat) (m : Mem) (head list node : Node)
    (headSize listSize : Option Nat) : Option Mem :=
  let tailh := m.prev head
  let m1 := m.setNext list node
  let m2 := m1.setPrev head (m1.prev node)
  let m3 := m2.setNext (m2.prev node) head
  let m4 := m3.setPrev node list
  let m5 := m4.setPrev list tailh
  let m6 := m5.setNext tailh list
  match headSize, listSize with
  | some h, some l =>
    match dlinkedlist_size fuel m6 head with
    | none => none
    | some sh =>
      let m7 := m6.setCell h sh
      match dlinkedlist_size fuel m7 list with
      | none => none
      | some sl => some (m7.setCell l sl)
  | _, _ => some m6

/-- The memory after the six pointer assignments of `__dlinkedlist_split`, before the
counters are looked at. -/
def splitRelinked (m : Mem) (head list node : Node) : Mem :=
  let tailh := m.prev head
  let m1 := m.setNext list node
  let m2 := m1.setPrev head (m1.prev node)
  let m3 := m2.setNext (m2.prev node) head
  let m4 := m3.setPrev node list
  let m5 := m4.setPrev list tailh
  m5.setNext tailh list

/-- Source: `dlinkedlist_split`. -/
def dlinkedlist_split (fuel : Nat) (m : Mem) (head list node : Node)
    (headSize listSize : Option Nat) : Option Mem :=
  if !dlinkedlist_empty m list then some m
  else if dlinkedlist_empty m head then some m
  else if head = node then some m
  else __dlinkedlist_split fuel m head list node headSize listSize

/-! ## Well-formedness and forward traversal -/

/-- Node `n` is reachable from `head` by following `next` pointers. -/
def Reach (m : Mem) (head n : Node) : Prop :=
  ∃ j : Nat, (m.next)^[j] head = n

/-- Well-formedness of the list at `head`: the `next` chain returns to the head, and
every node `n` reachable from the head has `n->next->prev == n` and `n->prev->next == n`. -/
def WellFormed (m : Mem) (head : Node) : Prop :=
  (∃ k : Nat, (m.next)^[k + 1] head = head) ∧
    ∀ n, Reach m head n → m.prev (m.next n) = n ∧ m.next (m.prev n) = n

/-- Two consecutive nodes of a chain: `x->next == y` and `y->prev == x`. -/
def Link (m : Mem) (x y : Node) : Prop :=
  m.next x = y ∧ m.prev y = x

instance Link.decidable (m : Mem) : DecidableRel (Link m) := fun x y =>
  inferInstanceAs (Decidable (m.next x = y ∧ m.prev y = x))

/-- A doubly linked path: every node of the list is linked to the one after it. -/
def Path (m : Mem) : List Node → Prop
  | [] => True
  | [_] => True
  | x :: y :: r => Link m x y ∧ Path m (y :: r)

instance Path.decidable (m : Mem) : ∀ p : List Node, Decidable (Path m p)
  | [] => isTrue trivial
  | [_] => isTrue trivial
  | x :: y :: r => @instDecidableAnd _ _ (Link.decidable m x y) (Path.decidable m (y :: r))

/-- The list at `head` has forward traversal `l`: the elements met from `head->next` until
the head is met again are those of `l`, in order, all distinct and distinct from the head,
and the `prev` pointers mirror the `next` pointers. -/
def Traversal (m : Mem) (head : Node) (l : List Node) : Prop :=
  Path m (head :: (l ++ [head])) ∧ (head :: l).Nodup

instance Traversal.decidable (m : Mem) (head : Node) (l : List Node) :
    Decidable (Traversal m head l) :=
  inferInstanceAs (Decidable (Path m (head :: (l ++ [head])) ∧ (head :: l).Nodup))

/-- A memory where every node is self-linked and every counter holds zero. -/
def Mem.blank : Mem := ⟨fun x => x, fun x => x, fun _ => 0⟩

/-! ## Sequences of operations and concrete memories -/

/-- One mutating call on the list at a fixed head: an add or a remove. -/
inductive ListOp where
  | add_head (node : Node)
  | add_tail (node : Node)
  | add_after (anchor node : Node)
  | add_before (anchor node : Node)
  | remove (node : Node)

/-- The call itself, on the list at `head`, passing the counter `size`. -/
def ListOp.apply (m : Mem) (head : Node) (size : Option Nat) : ListOp → Mem
  | .add_head node => dlinkedlist_add_head m head node size
  | .add_tail node => dlinkedlist_add_tail m head node size
  | .add_after anchor node => dlinkedlist_add_after m anchor node size
  | .add_before anchor node => dlinkedlist_add_before m anchor node size
  | .remove node => dlinkedlist_remove m node size

/-- Precondition of a call: an added node is not in the list (the anchor of
`add_after`/`add_before` is), a removed node is a member other than the head. -/
def ListOp.Pre (m : Mem) (head : Node) : ListOp → Prop
  | .add_head node => ¬ Reach m head node
  | .add_tail node => ¬ Reach m head node
  | .add_after anchor node => Reach m head anchor ∧ ¬ Reach m head node
  | .add_before anchor node => Reach m head anchor ∧ ¬ Reach m head node
  | .remove node => Reach m head node ∧ node ≠ head

/-- The memory after a sequence of calls. -/
def runOps (head : Node) (size : Option Nat) : Mem → List ListOp → Mem
  | m, [] => m
  | m, op :: ops => runOps head size (op.apply m head size) ops

/-- Every call of the sequence is made under its precondition. -/
def OpsOk (head : Node) (size : Option Nat) : Mem → List ListOp → Prop
  | _, [] => True
  | m, op :: ops => op.Pre m head ∧ OpsOk head size (op.apply m head size) ops

/-- Removing the first element (`head->next`) of the list `j` times in a row. -/
def removeFront (head : Node) (size : Option Nat) : Nat → Mem → Mem
  | 0, m => m
  | j + 1, m => removeFront head size j (dlinkedlist_remove m (m.next head) size)

/-- The list at head `1` with elements `2, 3`, built by two `add_tail`, its size kept in
counter `0`; node `4` is an empty list head and `5` an unlinked node. -/
def mem23 : Mem :=
  dlinkedlist_add_tail (dlinkedlist_add_tail
    (dlinkedlist_init_head (dlinkedlist_init_head Mem.blank 4 none) 1 (some 0)) 1 2 (some 0))
    1 3 (some 0)

/-- The list at head `1` with the single element `2`, and the counter `0` set to `5`. -/
def mem2 : Mem :=
  (dlinkedlist_add_tail (dlinkedlist_init_head Mem.blank 1 none) 1 2 none).setCell 0 5

/-! ## `dlinkedlist_free`

The release callback `fn` of type `dlinkedlist_free_node` is a parameter: what it does to
the memory when given a node (its result is ignored by `dlinkedlist_free`).  The run is
instrumented with the log of the field accesses and callback invocations, in program
order. -/

/-- The null node pointer. -/
def NULL : Node := 0

/-- One step of the log of `dlinkedlist_free`: a read or a write of a field of a node, or
the invocation of the release callback on a node. -/
inductive Access where
  | read_next (n : Node)
  | read_prev (n : Node)
  | write_next (n : Node)
  | call (n : Node)
  deriving DecidableEq

/-- The nodes the callback was invoked on, in order. -/
def calls : List Access → List Node
  | [] => []
  | .call n :: r => n :: calls r
  | _ :: r => calls r

/-- The loop `while (n != head) { n = n->prev; fn(n->next); n->next = NULL; }` of
`dlinkedlist_free`, entered with cursor `n`. -/
def freeLoop (fn : Node → Mem → Mem) (head : Node) :
    Nat → Mem → Node → List Access → Option (Mem × List Access)
  | 0, _, _, _ => none
  | fuel + 1, m, n, log =>
    if n ≠ head then
      let n1 := m.prev n
      let arg := m.next n1
      let m1 := fn arg m
      let m2 := m1.setNext n1 NULL
      freeLoop fn head fuel m2 n1
        (log ++ [.read_prev n, .read_next n1, .call arg, .write_next n1])
    else some (m, log)

/-- Source: `dlinkedlist_free` (the assignment `head = NULL` to the local variable has no
effect on the memory). -/
def dlinkedlist_free (fuel : Nat) (fn : Node → Mem → Mem) (m : Mem) (head : Node)
    (size : Option Nat) : Option (Mem × List Access) :=
  match freeLoop fn head fuel m (m.prev head) [.read_prev head] with
  | none => none
  | some (m1, log) =>
    let m2 := fn head m1
    match size with
    | some c => some (m2.setCell c 0, log ++ [.call head])
    | none => some (m2, log ++ [.call head])

/-- The log of the loop of `dlinkedlist_free` over the nodes `bl`, read backwards from the
tail of the list. -/
def freeEvents (head : Node) : List Node → List Access
  | [] => []
  | z :: bl =>
    [.read_prev z, .read_next (bl.headD head), .call z, .write_next (bl.headD head)] ++
      freeEvents head bl

/-- The memory read backwards: `next` and `prev` exchanged. -/
def Mem.mirror (m : Mem) : Mem := ⟨m.prev, m.next, m.cell⟩

/-! ## The iterator contract (`iterator.h`)

A `void*` item is an address, `NULL` standing for "no item".  A `struct iterator*` is an
`Option`: `none` is the null pointer.  The record `iterator` holds the values of the
`struct iterator`; its bindings act on the state `σ` of the concrete iterator they are
invoked on and return an item and the state after the call. -/

/-- Source: `ITERATOR_ACCESS_MODE_FORWARD = 1 << 0`. -/
def ITERATOR_ACCESS_MODE_FORWARD : Nat := 1 <<< 0

/-- Source: `ITERATOR_ACCESS_MODE_BACKWARD = 1 << 1`. -/
def ITERATOR_ACCESS_MODE_BACKWARD : Nat := 1 <<< 1

/-- Source: `ITERATOR_ACCESS_MODE_WRITABLE = 1 << 2`. -/
def ITERATOR_ACCESS_MODE_WRITABLE : Nat := 1 <<< 2

/-- Source: `ITERATOR_ACCESS_MODE_MUTABLE = 1 << 3`. -/
def ITERATOR_ACCESS_MODE_MUTABLE : Nat := 1 <<< 3

/-- Source: `struct iterator`.  The binding `end` of the source is `end_` here. -/
structure iterator (σ : Type) where
  /-- Access mode, a set of bits. -/
  _mode : Nat
  /-- Move to the next item. -/
  next : σ → Nat × σ
  /-- Move to the previous item. -/
  prev : σ → Nat × σ
  /-- Item at the current position. -/
  current : σ → Nat × σ
  /-- Resolver of the first item. -/
  begin : σ → Nat × σ
  /-- Resolver of the past-the-end item. -/
  end_ : σ → Nat × σ
  /-- Cached first item. -/
  _first : Nat
  /-- Cached last item. -/
  _last : Nat

/-- Source: `iterator_item_next`. -/
def iterator_item_next {σ : Type} (it : Option (iterator σ)) (s : σ) : Nat × σ :=
  match it with
  | none => (NULL, s)
  | some i =>
    if i._mode &&& ITERATOR_ACCESS_MODE_FORWARD ≠ 0 then i.next s
    else (NULL, s)

/-- Source: `iterator_item_prev`. -/
def iterator_item_prev {σ : Type} (it : Option (iterator σ)) (s : σ) : Nat × σ :=
  match it with
  | none => (NULL, s)
  | some i =>
    if i._mode &&& ITERATOR_ACCESS_MODE_BACKWARD ≠ 0 then i.prev s
    else (NULL, s)

/-- Source: `iterator_item_current`. -/
def iterator_item_current {σ : Type} (it : Option (iterator σ)) (s : σ) : Nat × σ :=
  match it with
  | none => (NULL, s)
  | some i => i.current s

/-- Source: `iterator_item_begin`. -/
def iterator_item_begin {σ : Type} (it : Option (iterator σ)) (s : σ) : Nat × σ :=
  match it with
  | none => (NULL, s)
  | some i =>
    if i._first ≠ NULL then (i._first, s)
    else i.begin s

/-- Source: `iterator_item_end`. -/
def iterator_item_end {σ : Type} (it : Option (iterator σ)) (s : σ) : Nat × σ :=
  match it with
  | none => (NULL, s)
  | some i =>
    if i._last ≠ NULL then (i._last, s)
    else i.end_ s

/-- An iterator over a counter: the state is a position, every binding counts its own
invocation by moving the position (`next` by 1, `prev` by 10, `current` by 100, `begin`
by 1000, `end` by 10000) and returns the new position; nothing is cached. -/
def countingIterator (mode : Nat) : iterator Nat :=
  ⟨mode, fun s => (s + 1, s + 1), fun s => (s + 10, s + 10), fun s => (s + 100, s + 100),
    fun s => (s + 1000, s + 1000), fun s => (s + 10000, s + 10000), NULL, NULL⟩

/-- The same iterator with another value of `_mode`. -/
def iterator.withMode {σ : Type} (it : iterator σ) (mode : Nat) : iterator σ :=
  ⟨mode, it.next, it.prev, it.current, it.begin, it.end_, it._first, it._last⟩

/-- An iterator over the addresses: the state is the position, `next` and `prev` move it
by one and return it, `current` returns it without moving, the resolvers return 1 and
100; nothing is cached. -/
def cursorIterator (mode : Nat) : iterator Nat :=
  ⟨mode, fun s => (s + 1, s + 1), fun s => (s - 1, s - 1), fun s => (s, s),
    fun s => (1, s), fun s => (100, s), NULL, NULL⟩

/-! ## The list iterator (`dlinkedlist.h`, iterator support)

The members `_current`, `_head`, `_tail` of `struct iterator_dlinkedlist` are the record
`iterator_dlinkedlist`; its member `_base` is kept apart, as an `iterator`, and its member
`_sentineltail` is the node of the memory at the address `_tail`.  The state the bindings
act on is the memory together with that record.  A binding is given the iterator pointer:
`none` is the null pointer, and the record after the call is returned with the item. -/

/-- Source: `struct iterator_dlinkedlist` (members `_current`, `_head`, `_tail`). -/
structure iterator_dlinkedlist where
  /-- The cursor. -/
  _current : Node
  /-- The list head. -/
  _head : Node
  /-- Address of the sentinel tail. -/
  _tail : Node
  deriving DecidableEq

/-- Source: `__dlinkedlist_iterator_next`. -/
def __dlinkedlist_iterator_next (m : Mem) (iterator : Option iterator_dlinkedlist) :
    Nat × Option iterator_dlinkedlist :=
  match iterator with
  | none => (NULL, none)
  | some iterator2 =>
    if iterator2._current ≠ iterator2._tail then
      (m.next iterator2._current,
        some ⟨m.next iterator2._current, iterator2._head, iterator2._tail⟩)
    else (iterator2._current, some iterator2)

/-- Source: `__dlinkedlist_iterator_prev`. -/
def __dlinkedlist_iterator_prev (m : Mem) (iterator : Option iterator_dlinkedlist) :
    Nat × Option iterator_dlinkedlist :=
  match iterator with
  | none => (NULL, none)
  | some iterator2 =>
    if iterator2._current ≠ iterator2._head then
      (m.prev iterator2._current,
        some ⟨m.prev iterator2._current, iterator2._head, iterator2._tail⟩)
    else (iterator2._current, some iterator2)

/-- Source: `__dlinkedlist_iterator_current`. -/
def __dlinkedlist_iterator_current (_m : Mem) (iterator : Option iterator_dlinkedlist) :
    Nat × Option iterator_dlinkedlist :=
  match iterator with
  | none => (NULL, none)
  | some iterator2 => (iterator2._current, some iterator2)

/-- Source: `__dlinkedlist_iterator_begin`. -/
def __dlinkedlist_iterator_begin (_m : Mem) (iterator : Option iterator_dlinkedlist) :
    Nat × Option iterator_dlinkedlist :=
  match iterator with
  | none => (NULL, none)
  | some iterator2 => (iterator2._head, some iterator2)

/-- Source: `__dlinkedlist_iterator_end`. -/
def __dlinkedlist_iterator_end (_m : Mem) (iterator : Option iterator_dlinkedlist) :
    Nat × Option iterator_dlinkedlist :=
  match iterator with
  | none => (NULL, none)
  | some iterator2 => (iterator2._tail, some iterator2)

/-- A list binding stored in the base record: the function is invoked on the (non-null)
iterator itself. -/
def listBinding (f : Mem → Option iterator_dlinkedlist → Nat × Option iterator_dlinkedlist) :
    Mem × iterator_dlinkedlist → Nat × (Mem × iterator_dlinkedlist) :=
  fun s => ((f s.1 (some s.2)).1, (s.1, ((f s.1 (some s.2)).2).getD s.2))

/-- Source: `dlinkedlist_iterator_get`.  What `malloc` returns is a parameter: `sentinel`
is the address of the member `_sentineltail` of the allocated iterator, and `first`,
`last` are the values the members `_base._first`, `_base._last` happen to hold in the
allocated block, which the function does not assign.  The result is the base record and
the state (memory and list iterator record) after the call. -/
def dlinkedlist_iterator_get (m : Mem) (head : Node) (_headSize : Option Nat)
    (sentinel : Node) (first last : Nat) :
    iterator (Mem × iterator_dlinkedlist) × (Mem × iterator_dlinkedlist) :=
  let base : iterator (Mem × iterator_dlinkedlist) :=
    ⟨ITERATOR_ACCESS_MODE_FORWARD ||| ITERATOR_ACCESS_MODE_BACKWARD,
      listBinding __dlinkedlist_iterator_next, listBinding __dlinkedlist_iterator_prev,
      listBinding __dlinkedlist_iterator_current, listBinding __dlinkedlist_iterator_begin,
      listBinding __dlinkedlist_iterator_end, first, last⟩
  let m1 := dlinkedlist_init_head m sentinel none
  let m2 := m1.setNext sentinel head
  let m3 := m2.setPrev sentinel (m2.prev head)
  (base, (m3, ⟨head, head, sentinel⟩))

/-- The items returned by `n` successive `iterator_item_next` calls, and the state after
them. -/
def nextItems {σ : Type} (it : iterator σ) : Nat → σ → List Nat × σ
  | 0, s => ([], s)
  | n + 1, s =>
    ((iterator_item_next (some it) s).1 :: (nextItems it n (iterator_item_next (some it) s).2).1,
      (nextItems it n (iterator_item_next (some it) s).2).2)

/-- The items returned by `n` successive `iterator_item_prev` calls, and the state after
them. -/
def prevItems {σ : Type} (it : iterator σ) : Nat → σ → List Nat × σ
  | 0, s => ([], s)
  | n + 1, s =>
    ((iterator_item_prev (some it) s).1 :: (prevItems it n (iterator_item_prev (some it) s).2).1,
      (prevItems it n (iterator_item_prev (some it) s).2).2)

/-! ## Container recovery

`offsetof(containertype, member)` is a parameter, `offset`: the byte offset of the node
member in the record type.  Addresses are natural numbers. -/

/-- Source: macro `__dlinkedlist_container_of`. -/
def __dlinkedlist_container_of (ptr offset : Nat) : Nat := ptr - offset

/-- Source: macro `dlinkedlist_entry`. -/
def dlinkedlist_entry (ptr offset : Nat) : Nat := __dlinkedlist_container_of ptr offset

/-- Source: macro `dlinkedlist_prev_entry`. -/
def dlinkedlist_prev_entry (m : Mem) (ptr offset : Nat) : Nat :=
  __dlinkedlist_container_of (m.prev ptr) offset

/-- Source: macro `dlinkedlist_next_entry`. -/
def dlinkedlist_next_entry (m : Mem) (ptr offset : Nat) : Nat :=
  __dlinkedlist_container_of (m.next ptr) offset

/-- The node whose field an access reads or writes (`none` for a callback invocation). -/
def Access.field : Access → Option Node
  | .read_next n => some n
  | .read_prev n => some n
  | .write_next n => some n
  | .call _ => none

/-- No use after release: an access that comes after the invocation of the callback on a
node is not an access to a field of that node. -/
def NoUseAfterRelease (log : List Access) : Prop :=
  log.Pairwise (fun a b => ∀ n, a = .call n → b.field ≠ some n)

/-- The iterator obtained on the list `2, 3` at head `1`, the sentinel tail allocated at
address `9`, the block holding zeroes where `_first` and `_last` are. -/
def iter23 : iterator (Mem × iterator_dlinkedlist) × (Mem × iterator_dlinkedlist) :=
  dlinkedlist_iterator_get mem23 1 none 9 0 0

/-- The same iterator, the allocated block holding `7` and `8` where `_first` and `_last`
are. -/
def iter23garbage : iterator (Mem × iterator_dlinkedlist) × (Mem × iterator_dlinkedlist) :=
  dlinkedlist_iterator_get mem23 1 none 9 7 8

/-! ## The range of the counters -/

/-- The least value of an `int_least32_t` of 32 bits, the narrowest the type can be. -/
def INT_LEAST32_MIN : Int := -2147483648

/-- The greatest value of an `int_least32_t` of 32 bits. -/
def INT_LEAST32_MAX : Int := 2147483647

/-- The integer is a value an `int_least32_t` holds on every implementation: on such
values, with such a result, `++`, `--` and `+=` of the source are exact. -/
def InRange32 (v : Int) : Prop :=
  INT_LEAST32_MIN ≤ v ∧ v ≤ INT_LEAST32_MAX

instance InRange32.decidable (v : Int) : Decidable (InRange32 v) :=
  inferInstanceAs (Decidable (INT_LEAST32_MIN ≤ v ∧ v ≤ INT_LEAST32_MAX))

/-! ## Memory updates -/

@[simp] theorem Mem.setNext_next (m : Mem) (n v x : Node) :
    (m.setNext n v).next x = if x = n then v else m.next x := rfl

@[simp] theorem Mem.setNext_prev (m : Mem) (n v : Node) : (m.setNext n v).prev = m.prev := rfl

@[simp] theorem Mem.setNext_cell (m : Mem) (n v : Node) : (m.setNext n v).cell = m.cell := rfl

@[simp] theorem Mem.setPrev_prev (m : Mem) (n v x : Node) :
    (m.setPrev n v).prev x = if x = n then v else m.prev x := rfl

@[simp] theorem Mem.setPrev_next (m : Mem) (n v : Node) : (m.setPrev n v).next = m.next := rfl

@[simp] theorem Mem.setPrev_cell (m : Mem) (n v : Node) : (m.setPrev n v).cell = m.cell := rfl

@[simp] theorem Mem.setCell_cell (m : Mem) (c : Nat) (v : Int) (x : Nat) :
    (m.setCell c v).cell x = if x = c then v else m.cell x := rfl

@[simp] theorem Mem.setCell_next (m : Mem) (c : Nat) (v : Int) :
    (m.setCell c v).next = m.next := rfl

@[simp] theorem Mem.setCell_prev (m : Mem) (c : Nat) (v : Int) :
    (m.setCell c v).prev = m.prev := rfl

/-! ## Paths -/

theorem path_iff_chain (m : Mem) : ∀ p : List Node, Path m p ↔ List.Chain' (Link m) p
  | [] => by simp [Path]
  | [_] => by simp [Path]
  | x :: y :: r => by
    rw [List.chain'_cons, ← path_iff_chain m (y :: r)]
    rfl

theorem path_cons_cons (m : Mem) (x y : Node) (r : List Node) :
    Path m (x :: y :: r) ↔ Link m x y ∧ Path m (y :: r) := Iff.rfl

/-- A path can be cut at any of its nodes. -/
theorem path_split (m : Mem) (l₁ : List Node) (x : Node) (l₂ : List Node) :
    Path m (l₁ ++ x :: l₂) ↔ Path m (l₁ ++ [x]) ∧ Path m (x :: l₂) := by
  simp only [path_iff_chain]
  exact List.chain'_split

/-- A path only depends on the `next` field of its nodes but the last and on the `prev`
field of its nodes but the first. -/
theorem path_frame {m m' : Mem} : ∀ p : List Node,
    (∀ x ∈ p.dropLast, m'.next x = m.next x) → (∀ y ∈ p.tail, m'.prev y = m.prev y) →
    Path m p → Path m' p
  | [], _, _, _ => trivial
  | [_], _, _, _ => trivial
  | x :: y :: r, hn, hp, h => by
    obtain ⟨⟨h1, h2⟩, h3⟩ := h
    refine ⟨⟨?_, ?_⟩, path_frame (y :: r) ?_ ?_ h3⟩
    · rw [hn x (by simp), h1]
    · rw [hp y (by simp), h2]
    · intro z hz
      exact hn z (by simp [List.dropLast]; right; simpa using hz)
    · intro z hz
      exact hp z (by simp at hz ⊢; exact Or.inr hz)

/-- Frame rule for a segment from `a` through `l` to `b`. -/
theorem seg_frame {m m' : Mem} (a : Node) (l : List Node) (b : Node)
    (hn : ∀ x ∈ a :: l, m'.next x = m.next x) (hp : ∀ y ∈ l ++ [b], m'.prev y = m.prev y)
    (h : Path m (a :: (l ++ [b]))) : Path m' (a :: (l ++ [b])) := by
  refine path_frame _ ?_ ?_ h
  · intro x hx
    rw [← List.cons_append, List.dropLast_concat] at hx
    exact hn x hx
  · intro y hy
    exact hp y (by simpa using hy)

/-- Frame rule for a path given both from its first node and up to its last node. -/
theorem path_frame_int {m m' : Mem} {a : Node} {l l' : List Node} {b : Node}
    (e : a :: l = l' ++ [b]) (hn : ∀ x ∈ l', m'.next x = m.next x)
    (hp : ∀ y ∈ l, m'.prev y = m.prev y) (h : Path m (a :: l)) : Path m' (a :: l) := by
  refine path_frame _ ?_ ?_ h
  · intro x hx
    rw [e, List.dropLast_concat] at hx
    exact hn x hx
  · intro y hy
    exact hp y (by simpa using hy)

/-! ## Pointer effect of the primitives -/

theorem add_next (m : Mem) (node p n : Node) (size : Option Nat) (x : Node) :
    (__dlinkedlist_add m node p n size).next x =
      if x = p then node else if x = node then n else m.next x := by
  cases size <;> simp [__dlinkedlist_add]

theorem add_prev (m : Mem) (node p n : Node) (size : Option Nat) (x : Node) :
    (__dlinkedlist_add m node p n size).prev x =
      if x = n then node else if x = node then p else m.prev x := by
  cases size <;> simp [__dlinkedlist_add]

theorem traversal_nil_iff (m : Mem) (head : Node) :
    Traversal m head [] ↔ m.next head = head ∧ m.prev head = head := by
  simp [Traversal, Path, Link]

/-- Linking `node` right after the head puts it in front of the traversal. -/
theorem traversal_add_head {m : Mem} {head : Node} {l : List Node} (h : Traversal m head l)
    {node : Node} (hn : node ∉ head :: l) (size : Option Nat) :
    Traversal (dlinkedlist_add_head m head node size) head (node :: l) := by
  obtain ⟨hp, hnd⟩ := h
  have hnh : node ≠ head := fun e => hn (by simp [e])
  refine ⟨?_, ?_⟩
  · cases l with
    | nil =>
      obtain ⟨h1, h2⟩ : m.next head = head ∧ m.prev head = head := by
        simpa [Path, Link] using hp
      simp [Path, Link, dlinkedlist_add_head, add_next, add_prev, h1, hnh]
    | cons x xs =>
      simp only [List.cons_append, path_cons_cons] at hp ⊢
      obtain ⟨⟨h1, h2⟩, h3⟩ := hp
      have hxh : x ≠ head := fun e => by simp [e] at hnd
      have hnx : node ≠ x := fun e => hn (by simp [e])
      refine ⟨⟨?_, ?_⟩, ⟨?_, ?_⟩, seg_frame _ _ _ ?_ ?_ h3⟩
      · simp [dlinkedlist_add_head, add_next]
      · simp [dlinkedlist_add_head, add_prev, h1, hnx]
      · simp [dlinkedlist_add_head, add_next, hnh, h1]
      · simp [dlinkedlist_add_head, add_prev, h1]
      · intro z hz
        have e1 : z ≠ head := fun e => by subst e; simp at hnd hz; tauto
        have e2 : z ≠ node := fun e => by subst e; simp at hn hz; tauto
        simp [dlinkedlist_add_head, add_next, e1, e2]
      · intro z hz
        have e1 : z ≠ x := fun e => by subst e; simp at hnd hz; tauto
        have e2 : z ≠ node := fun e => by subst e; simp at hn hz; tauto
        simp [dlinkedlist_add_head, add_prev, h1, e1, e2]
  · simp at hn hnd ⊢
    tauto

/-- A circular list can be read from any of its nodes. -/
theorem traversal_rotate (m : Mem) (head x : Node) (l₁ l₂ : List Node) :
    Traversal m head (l₁ ++ x :: l₂) ↔ Traversal m x (l₂ ++ head :: l₁) := by
  have e1 : head :: ((l₁ ++ x :: l₂) ++ [head]) = (head :: l₁) ++ x :: (l₂ ++ [head]) := by
    simp
  have e2 : x :: ((l₂ ++ head :: l₁) ++ [x]) = (x :: l₂) ++ head :: (l₁ ++ [x]) := by simp
  have e3 : (head :: (l₁ ++ x :: l₂)).Nodup ↔ (x :: (l₂ ++ head :: l₁)).Nodup := by
    apply List.Perm.nodup_iff
    have p1 : List.Perm ((head :: l₁) ++ x :: l₂) (x :: ((head :: l₁) ++ l₂)) :=
      List.perm_middle
    have p2 : List.Perm (l₂ ++ head :: l₁) ((head :: l₁) ++ l₂) := List.perm_append_comm
    exact p1.trans (List.Perm.cons x p2.symm)
  unfold Traversal
  rw [e1, e2, path_split m (head :: l₁) x (l₂ ++ [head]),
    path_split m (x :: l₂) head (l₁ ++ [x]), e3]
  tauto

theorem traversal_head_links {m : Mem} {head : Node} {l : List Node} {z : Node}
    (h : Traversal m head (l ++ [z])) : m.prev head = z ∧ m.next z = head := by
  have h' := (traversal_rotate m head z l []).1 h
  simp only [List.nil_append] at h'
  obtain ⟨⟨h1, h2⟩, -⟩ := h'.1
  exact ⟨h2, h1⟩

theorem traversal_first_links {m : Mem} {head : Node} {l : List Node} {x : Node}
    (h : Traversal m head (x :: l)) : m.next head = x ∧ m.prev x = head := by
  obtain ⟨⟨h1, h2⟩, -⟩ := h.1
  exact ⟨h1, h2⟩

/-- Linking `node` right before the head puts it at the end of the traversal. -/
theorem traversal_add_tail {m : Mem} {head : Node} {l : List Node} (h : Traversal m head l)
    {node : Node} (hn : node ∉ head :: l) (size : Option Nat) :
    Traversal (dlinkedlist_add_tail m head node size) head (l ++ [node]) := by
  rcases List.eq_nil_or_concat l with rfl | ⟨l', z, rfl⟩
  on_goal 2 => rw [List.concat_eq_append] at h hn ⊢
  · obtain ⟨h1, h2⟩ := (traversal_nil_iff m head).1 h
    have e : dlinkedlist_add_tail m head node size = dlinkedlist_add_head m head node size := by
      simp [dlinkedlist_add_tail, dlinkedlist_add_head, h1, h2]
    rw [e]
    exact traversal_add_head h hn size
  · obtain ⟨h1, h2⟩ := traversal_head_links h
    have h' := (traversal_rotate m head z l' []).1 h
    simp only [List.nil_append] at h'
    have e : dlinkedlist_add_tail m head node size = dlinkedlist_add_head m z node size := by
      simp [dlinkedlist_add_tail, dlinkedlist_add_head, h1, h2]
    have hn' : node ∉ z :: head :: l' := by
      simp at hn ⊢
      tauto
    have h2 := traversal_add_head h' hn' size
    rw [e]
    have h3 := (traversal_rotate (dlinkedlist_add_head m z node size) z head [node] l').1
      (by simpa using h2)
    simpa using h3

/-- Linking `node` right after a member `a` of the list. -/
theorem traversal_add_after {m : Mem} {head a : Node} {l₁ l₂ : List Node}
    (h : Traversal m head (l₁ ++ a :: l₂)) {node : Node}
    (hn : node ∉ head :: (l₁ ++ a :: l₂)) (size : Option Nat) :
    Traversal (dlinkedlist_add_after m a node size) head (l₁ ++ a :: node :: l₂) := by
  have h' := (traversal_rotate m head a l₁ l₂).1 h
  have hn' : node ∉ a :: (l₂ ++ head :: l₁) := by
    simp at hn ⊢
    tauto
  have h2 : Traversal (dlinkedlist_add_after m a node size) a (node :: (l₂ ++ head :: l₁)) :=
    traversal_add_head h' hn' size
  exact (traversal_rotate _ head a l₁ (node :: l₂)).2 (by simpa using h2)

/-- Linking `node` right before a member `a` of the list. -/
theorem traversal_add_before {m : Mem} {head a : Node} {l₁ l₂ : List Node}
    (h : Traversal m head (l₁ ++ a :: l₂)) {node : Node}
    (hn : node ∉ head :: (l₁ ++ a :: l₂)) (size : Option Nat) :
    Traversal (dlinkedlist_add_before m a node size) head (l₁ ++ node :: a :: l₂) := by
  have h' := (traversal_rotate m head a l₁ l₂).1 h
  have hn' : node ∉ a :: (l₂ ++ head :: l₁) := by
    simp at hn ⊢
    tauto
  have h2 : Traversal (dlinkedlist_add_before m a node size) a ((l₂ ++ head :: l₁) ++ [node]) :=
    traversal_add_tail h' hn' size
  have h3 := (traversal_rotate _ head a (l₁ ++ [node]) l₂).2 (by simpa using h2)
  simpa using h3

theorem remove_relinks {m : Mem} {n : Node} (hl : m.prev (m.next n) = n)
    (hne : m.next n ≠ n) (size : Option Nat) :
    dlinkedlist_remove m n size =
      match size with
      | some c => ((m.setPrev (m.next n) (m.prev n)).setNext (m.prev n) (m.next n)).setCell c
          (m.cell c - 1)
      | none => (m.setPrev (m.next n) (m.prev n)).setNext (m.prev n) (m.next n) := by
  have e : dlinkedlist_empty m (m.prev (m.next n)) = false := by
    simp [dlinkedlist_empty, hl, hne]
  cases size <;> simp [dlinkedlist_remove, __dlinkedlist_remove, e]

theorem remove_next {m : Mem} {n : Node} (hl : m.prev (m.next n) = n)
    (hne : m.next n ≠ n) (size : Option Nat) (x : Node) :
    (dlinkedlist_remove m n size).next x = if x = m.prev n then m.next n else m.next x := by
  rw [remove_relinks hl hne]
  cases size <;> simp

theorem remove_prev {m : Mem} {n : Node} (hl : m.prev (m.next n) = n)
    (hne : m.next n ≠ n) (size : Option Nat) (x : Node) :
    (dlinkedlist_remove m n size).prev x = if x = m.next n then m.prev n else m.prev x := by
  rw [remove_relinks hl hne]
  cases size <;> simp

/-- Removing the node the ring is read from leaves the ring read from its successor. -/
theorem traversal_remove_first {m : Mem} {n y : Node} {ys : List Node}
    (h : Traversal m n (y :: ys)) (size : Option Nat) :
    Traversal (dlinkedlist_remove m n size) y ys := by
  obtain ⟨h1, h2⟩ := traversal_first_links h
  have hnd := h.2
  have hyn : y ≠ n := fun e => by simp [e] at hnd
  have hl : m.prev (m.next n) = n := by rw [h1, h2]
  have hne : m.next n ≠ n := by rw [h1]; exact hyn
  rcases List.eq_nil_or_concat ys with rfl | ⟨ys', z, rfl⟩
  · obtain ⟨h3, h4⟩ := traversal_head_links (l := []) h
    rw [traversal_nil_iff]
    simp [remove_next hl hne, remove_prev hl hne, h1, h3]
  · rw [List.concat_eq_append] at h hnd ⊢
    obtain ⟨h3, h4⟩ := traversal_head_links (l := y :: ys') h
    have hp : Path m ((n :: y :: ys') ++ z :: [n]) := by simpa using h.1
    rw [path_split] at hp
    have hp1 : Path m (y :: (ys' ++ [z])) := hp.1.2
    refine ⟨?_, ?_⟩
    · have e : y :: (ys' ++ [z] ++ [y]) = (y :: ys') ++ z :: [y] := by simp
      rw [e, path_split]
      refine ⟨seg_frame y ys' z ?_ ?_ hp1, ?_, trivial⟩
      · intro x hx
        have : x ≠ z := fun e => by subst e; simp [List.nodup_append] at hnd hx; tauto
        simp [remove_next hl hne, h3, this]
      · intro x hx
        have : x ≠ y := fun e => by subst e; simp [List.nodup_append] at hnd hx; tauto
        simp [remove_prev hl hne, h1, this]
      · exact ⟨by simp [remove_next hl hne, h3, h1], by simp [remove_prev hl hne, h3, h1]⟩
    · exact (List.nodup_cons.1 hnd).2

/-- Removing a member of the list deletes it from the traversal. -/
theorem traversal_remove {m : Mem} {head n : Node} {l₁ l₂ : List Node}
    (h : Traversal m head (l₁ ++ n :: l₂)) (size : Option Nat) :
    Traversal (dlinkedlist_remove m n size) head (l₁ ++ l₂) := by
  have h' := (traversal_rotate m head n l₁ l₂).1 h
  cases l₂ with
  | nil => simpa using traversal_remove_first (by simpa using h') size
  | cons y l₂ =>
    have h2 := @traversal_remove_first m n y (l₂ ++ head :: l₁) (by simpa using h') size
    exact (traversal_rotate _ head y l₁ l₂).2 h2

theorem splice_next {m : Mem} {list : Node} (he : dlinkedlist_empty m list = false)
    (head : Node) (ls hs : Option Nat) (x : Node) :
    (dlinkedlist_splice m list head ls hs).next x =
      if x = list then list else if x = m.prev list then m.next head
      else if x = head then m.next list else m.next x := by
  cases ls <;> cases hs <;>
    simp [dlinkedlist_splice, __dlinkedlist_splice, dlinkedlist_init_head, he]

theorem splice_prev {m : Mem} {list : Node} (he : dlinkedlist_empty m list = false)
    (head : Node) (ls hs : Option Nat) (x : Node) :
    (dlinkedlist_splice m list head ls hs).prev x =
      if x = list then list else if x = m.next head then m.prev list
      else if x = m.next list then head else m.prev x := by
  cases ls <;> cases hs <;>
    simp [dlinkedlist_splice, __dlinkedlist_splice, dlinkedlist_init_head, he]

/-- Splicing the non-empty list at `list` onto the list at `head`: the elements of `list`
come first, in order, followed by the former elements of `head`; `list` is left empty. -/
theorem traversal_splice {m : Mem} {list head b : Node} {B A : List Node}
    (hB : Traversal m list (b :: B)) (hA : Traversal m head A)
    (hd : ∀ x ∈ list :: b :: B, x ∉ head :: A) (ls hs : Option Nat) :
    Traversal (dlinkedlist_splice m list head ls hs) head (b :: B ++ A) ∧
      Traversal (dlinkedlist_splice m list head ls hs) list [] := by
  obtain ⟨hb1, hb2⟩ := traversal_first_links hB
  have hndB := hB.2
  have hndA := hA.2
  have hbl : b ≠ list := fun e => by simp [e] at hndB
  have he : dlinkedlist_empty m list = false := by simp [dlinkedlist_empty, hb1, hbl]
  obtain ⟨C, z, hC⟩ : ∃ C z, b :: B = C ++ [z] := by
    rcases List.eq_nil_or_concat (b :: B) with h | ⟨C, z, h⟩
    · simp at h
    · exact ⟨C, z, by rw [h, List.concat_eq_append]⟩
  obtain ⟨nx, R, hR⟩ : ∃ nx R, A ++ [head] = nx :: R := by
    cases A with
    | nil => exact ⟨head, [], rfl⟩
    | cons a A => exact ⟨a, A ++ [head], rfl⟩
  obtain ⟨hz1, hz2⟩ : m.prev list = z ∧ m.next z = list := by
    rw [hC] at hB
    exact traversal_head_links hB
  have hA1 : Path m (head :: nx :: R) := by rw [← hR]; exact hA.1
  obtain ⟨⟨hx1, hx2⟩, hA2⟩ := hA1
  have hB1 : Path m (C ++ z :: [list]) := by
    have : Path m (b :: (B ++ [list])) := hB.1.2
    rw [← List.cons_append, hC] at this
    simpa using this
  rw [path_split] at hB1
  have hB2 : Path m (b :: B) := by rw [hC]; exact hB1.1
  have hzB : z ∈ b :: B := by rw [hC]; simp
  have hnxA : nx ∈ head :: A := by
    have : nx ∈ A ++ [head] := by rw [hR]; simp
    simp at this ⊢
    tauto
  have hzC : z ∉ C := by
    have : (C ++ [z]).Nodup := by rw [← hC]; exact (List.nodup_cons.1 hndB).2
    simp [List.nodup_append] at this
    tauto
  have hnxR : nx ∉ R := by
    have : (A ++ [head]).Nodup := by
      simp [List.nodup_append] at hndA ⊢
      tauto
    rw [hR] at this
    exact (List.nodup_cons.1 this).1
  have hCB : ∀ x ∈ C, x ∈ b :: B := fun x hx => by rw [hC]; simp [hx]
  have hRA : ∀ x ∈ R, x ∈ head :: A := fun x hx => by
    have : x ∈ A ++ [head] := by rw [hR]; simp [hx]
    simp at this ⊢
    tauto
  have hlA : list ∉ head :: A := hd list (by simp)
  have hBA : ∀ x ∈ b :: B, x ∉ head :: A := fun x hx => hd x (List.mem_cons_of_mem _ hx)
  have hlB : list ∉ b :: B := (List.nodup_cons.1 hndB).1
  have hhA : head ∉ A := (List.nodup_cons.1 hndA).1
  have hbB : b ∉ B := (List.nodup_cons.1 (List.nodup_cons.1 hndB).2).1
  refine ⟨⟨?_, ?_⟩, ?_⟩
  · have e : head :: ((b :: B ++ A) ++ [head]) = (head :: C) ++ z :: nx :: R := by
      rw [List.append_assoc, hC, hR]
      simp
    rw [e, path_split]
    constructor
    · rw [List.cons_append, ← hC]
      refine ⟨⟨?_, ?_⟩, path_frame_int hC ?_ ?_ hB2⟩
      · have : head ≠ list := fun e => hlA (by simp [e])
        have : head ≠ z := fun e => hBA z hzB (by simp [e])
        simp [splice_next he, hz1, hb1, *]
      · have : b ≠ nx := fun e => hBA b (by simp) (e ▸ hnxA)
        simp [splice_prev he, hx1, hb1, *]
      · intro x hx
        have : x ≠ list := fun e => hlB (e ▸ hCB x hx)
        have : x ≠ z := fun e => hzC (e ▸ hx)
        have : x ≠ head := fun e => hBA x (hCB x hx) (by simp [e])
        simp [splice_next he, hz1, *]
      · intro x hx
        have : x ≠ list := fun e => hlB (e ▸ List.mem_cons_of_mem _ hx)
        have : x ≠ nx := fun e => hBA x (List.mem_cons_of_mem _ hx) (e ▸ hnxA)
        have : x ≠ b := fun e => hbB (e ▸ hx)
        simp [splice_prev he, hx1, hb1, *]
    · refine ⟨⟨?_, ?_⟩, path_frame_int hR.symm ?_ ?_ hA2⟩
      · have : z ≠ list := fun e => hlB (e ▸ hzB)
        simp [splice_next he, hz1, hx1, *]
      · have : nx ≠ list := fun e => hlA (e ▸ hnxA)
        simp [splice_prev he, hz1, hx1, *]
      · intro x hx
        have hxA : x ∈ head :: A := List.mem_cons_of_mem _ hx
        have : x ≠ list := fun e => hlA (e ▸ hxA)
        have : x ≠ z := fun e => hBA z hzB (e ▸ hxA)
        have : x ≠ head := fun e => hhA (e ▸ hx)
        simp [splice_next he, hz1, *]
      · intro x hx
        have : x ≠ list := fun e => hlA (e ▸ hRA x hx)
        have : x ≠ nx := fun e => hnxR (e ▸ hx)
        have : x ≠ b := fun e => hBA b (by simp) (e ▸ hRA x hx)
        simp [splice_prev he, hx1, hb1, *]
  · have h1 : (b :: B).Nodup := (List.nodup_cons.1 hndB).2
    have h2 : (head :: (A ++ (b :: B))).Nodup := by
      rw [← List.cons_append]
      refine List.Nodup.append hndA h1 ?_
      intro x hx1 hx2
      exact hBA x hx2 hx1
    refine (List.Perm.nodup_iff ?_).1 h2
    exact List.Perm.cons head List.perm_append_comm
  · rw [traversal_nil_iff]
    simp [splice_next he, splice_prev he]

theorem split_eq (fuel : Nat) (m : Mem) (head list node : Node)
    (headSize listSize : Option Nat) :
    __dlinkedlist_split fuel m head list node headSize listSize =
      match headSize, listSize with
      | some h, some l =>
        match dlinkedlist_size fuel (splitRelinked m head list node) head with
        | none => none
        | some sh =>
          match dlinkedlist_size fuel ((splitRelinked m head list node).setCell h sh) list with
          | none => none
          | some sl => some (((splitRelinked m head list node).setCell h sh).setCell l sl)
      | _, _ => some (splitRelinked m head list node) := rfl

theorem splitRelinked_next (m : Mem) (head list node x : Node) :
    (splitRelinked m head list node).next x =
      if x = m.prev head then list else if x = m.prev node then head
      else if x = list then node else m.next x := by
  simp only [splitRelinked, Mem.setNext_next, Mem.setPrev_next, Mem.setPrev_prev,
    Mem.setNext_prev]
  by_cases h : node = head <;> simp [h]

theorem splitRelinked_prev (m : Mem) (head list node x : Node) :
    (splitRelinked m head list node).prev x =
      if x = list then m.prev head else if x = node then list
      else if x = head then m.prev node else m.prev x := by
  simp [splitRelinked]

theorem splitRelinked_cell (m : Mem) (head list node : Node) :
    (splitRelinked m head list node).cell = m.cell := rfl

/-- The pointer surgery of split: the elements before the separator stay in `head`, the
separator and the elements after it are the traversal of `list`. -/
theorem traversal_splitRelinked {m : Mem} {head list n : Node} {l₁ l₂ : List Node}
    (h : Traversal m head (l₁ ++ n :: l₂)) (hl : list ∉ head :: (l₁ ++ n :: l₂)) :
    Traversal (splitRelinked m head list n) head l₁ ∧
      Traversal (splitRelinked m head list n) list (n :: l₂) := by
  have hnd := h.2
  obtain ⟨P, p, hP⟩ : ∃ P p, head :: l₁ = P ++ [p] := by
    rcases List.eq_nil_or_concat (head :: l₁) with h | ⟨C, z, h⟩
    · simp at h
    · exact ⟨C, z, by rw [h, List.concat_eq_append]⟩
  obtain ⟨T, t, hT⟩ : ∃ T t, n :: l₂ = T ++ [t] := by
    rcases List.eq_nil_or_concat (n :: l₂) with h | ⟨C, z, h⟩
    · simp at h
    · exact ⟨C, z, by rw [h, List.concat_eq_append]⟩
  have hsplit : Path m ((head :: l₁) ++ [n]) ∧ Path m (n :: (l₂ ++ [head])) := by
    have := h.1
    rw [List.append_assoc, ← List.cons_append, List.cons_append n, path_split] at this
    exact this
  have hP1 : Path m (P ++ p :: [n]) := by
    have := hsplit.1
    rw [hP] at this
    simpa using this
  rw [path_split] at hP1
  obtain ⟨hP2, ⟨hp1, hp2⟩, -⟩ := hP1
  have hT1 : Path m (T ++ t :: [head]) := by
    have := hsplit.2
    rw [← List.cons_append, hT] at this
    simpa using this
  rw [path_split] at hT1
  obtain ⟨hT2, ⟨ht1, ht2⟩, -⟩ := hT1
  have hPi : Path m (head :: l₁) := by rw [hP]; exact hP2
  have hTi : Path m (n :: l₂) := by rw [hT]; exact hT2
  -- membership facts
  have hndH : (head :: l₁).Nodup := by
    have : ((head :: l₁) ++ n :: l₂).Nodup := hnd
    exact (List.nodup_append.1 this).1
  have hndT : (n :: l₂).Nodup := by
    have : ((head :: l₁) ++ n :: l₂).Nodup := hnd
    exact (List.nodup_append.1 this).2.1
  have hdis : ∀ x ∈ head :: l₁, x ∉ n :: l₂ := by
    have : ((head :: l₁) ++ n :: l₂).Nodup := hnd
    intro x hx hx'
    exact (List.nodup_append.1 this).2.2 hx hx'
  have hpH : p ∈ head :: l₁ := by rw [hP]; simp
  have htT : t ∈ n :: l₂ := by rw [hT]; simp
  have hPH : ∀ x ∈ P, x ∈ head :: l₁ := fun x hx => by rw [hP]; simp [hx]
  have hTT : ∀ x ∈ T, x ∈ n :: l₂ := fun x hx => by rw [hT]; simp [hx]
  have hpP : p ∉ P := by
    have : (P ++ [p]).Nodup := by rw [← hP]; exact hndH
    simp [List.nodup_append] at this
    tauto
  have htT' : t ∉ T := by
    have : (T ++ [t]).Nodup := by rw [← hT]; exact hndT
    simp [List.nodup_append] at this
    tauto
  have hlH : list ∉ head :: l₁ := fun hx => hl (by
    rw [← List.cons_append]; exact List.mem_append_left _ hx)
  have hlT : list ∉ n :: l₂ := fun hx => hl (by
    rw [← List.cons_append]; exact List.mem_append_right _ hx)
  have hhl : head ∉ l₁ := (List.nodup_cons.1 hndH).1
  have hnl : n ∉ l₂ := (List.nodup_cons.1 hndT).1
  have hpt : p ≠ t := fun e => hdis p hpH (e ▸ htT)
  have hpl : p ≠ list := fun e => hlH (e ▸ hpH)
  have htl : t ≠ list := fun e => hlT (e ▸ htT)
  have hhn : head ≠ n := fun e => hdis head (by simp) (by simp [e])
  have hhlist : head ≠ list := fun e => hlH (by simp [e])
  have hnlist : n ≠ list := fun e => hlT (by simp [e])
  refine ⟨⟨?_, hndH⟩, ⟨?_, ?_⟩⟩
  · have e : head :: (l₁ ++ [head]) = P ++ p :: [head] := by
      rw [← List.cons_append, hP]; simp
    rw [e, path_split]
    refine ⟨?_, ⟨?_, ?_⟩, trivial⟩
    · rw [← hP]
      refine path_frame_int hP ?_ ?_ hPi
      · intro x hx
        have : x ≠ t := fun e => hdis x (hPH x hx) (e ▸ htT)
        have : x ≠ p := fun e => hpP (e ▸ hx)
        have : x ≠ list := fun e => hlH (e ▸ hPH x hx)
        simp [splitRelinked_next, ht2, hp2, *]
      · intro x hx
        have : x ≠ list := fun e => hlH (e ▸ List.mem_cons_of_mem _ hx)
        have : x ≠ n := fun e => hdis x (List.mem_cons_of_mem _ hx) (by simp [e])
        have : x ≠ head := fun e => hhl (e ▸ hx)
        simp [splitRelinked_prev, *]
    · simp [splitRelinked_next, ht2, hp2, hpt]
    · simp [splitRelinked_prev, hp2, hhlist, hhn]
  · have e : list :: ((n :: l₂) ++ [list]) = (list :: T) ++ t :: [list] := by
      rw [hT]; simp
    rw [e, path_split]
    refine ⟨?_, ⟨?_, ?_⟩, trivial⟩
    · rw [List.cons_append, ← hT]
      refine ⟨⟨?_, ?_⟩, path_frame_int hT ?_ ?_ hTi⟩
      · simp [splitRelinked_next, ht2, hp2, Ne.symm htl, Ne.symm hpl]
      · simp [splitRelinked_prev, hnlist]
      · intro x hx
        have : x ≠ t := fun e => htT' (e ▸ hx)
        have : x ≠ p := fun e => hdis p hpH (e ▸ hTT x hx)
        have : x ≠ list := fun e => hlT (e ▸ hTT x hx)
        simp [splitRelinked_next, ht2, hp2, *]
      · intro x hx
        have : x ≠ list := fun e => hlT (e ▸ List.mem_cons_of_mem _ hx)
        have : x ≠ n := fun e => hnl (e ▸ hx)
        have : x ≠ head := fun e => hdis head (by simp) (e ▸ List.mem_cons_of_mem _ hx)
        simp [splitRelinked_prev, *]
    · simp [splitRelinked_next, ht2]
    · simp [splitRelinked_prev, ht2]
  · exact List.nodup_cons.2 ⟨hlT, hndT⟩

/-! ## Counters do not matter to the shape, and `dlinkedlist_size` -/

theorem path_congr {m m' : Mem} (hn : m'.next = m.next) (hp : m'.prev = m.prev) :
    ∀ p : List Node, Path m' p ↔ Path m p
  | [] => Iff.rfl
  | [_] => Iff.rfl
  | x :: y :: r => by
    rw [path_cons_cons, path_cons_cons, path_congr hn hp (y :: r)]
    simp [Link, hn, hp]

theorem traversal_congr {m m' : Mem} (hn : m'.next = m.next) (hp : m'.prev = m.prev)
    (head : Node) (l : List Node) : Traversal m' head l ↔ Traversal m head l := by
  simp [Traversal, path_congr hn hp]

theorem sizeLoop_congr {m m' : Mem} (hn : m'.next = m.next) (head : Node) :
    ∀ (fuel : Nat) (node : Node) (acc : Int),
      sizeLoop m' head fuel node acc = sizeLoop m head fuel node acc
  | 0, _, _ => rfl
  | fuel + 1, node, acc => by
    simp only [sizeLoop, hn, sizeLoop_congr hn head fuel]

theorem size_congr {m m' : Mem} (hn : m'.next = m.next) (fuel : Nat) (head : Node) :
    dlinkedlist_size fuel m' head = dlinkedlist_size fuel m head := by
  simp [dlinkedlist_size, sizeLoop_congr hn, hn]

/-- The loop of `dlinkedlist_size` counts the nodes of a segment that ends at the head. -/
theorem sizeLoop_seg {m : Mem} {head : Node} : ∀ (l : List Node) (a : Node) (acc : Int)
    (fuel : Nat), Path m (a :: (l ++ [head])) → head ∉ l → l.length < fuel →
    sizeLoop m head fuel (m.next a) acc = some (acc + l.length)
  | [], a, acc, fuel, hp, _, hf => by
    obtain ⟨fuel, rfl⟩ : ∃ f, fuel = f + 1 := ⟨fuel - 1, by simp at hf; omega⟩
    obtain ⟨⟨h1, -⟩, -⟩ := hp
    simp [sizeLoop, h1]
  | x :: xs, a, acc, fuel, hp, hh, hf => by
    obtain ⟨fuel, rfl⟩ : ∃ f, fuel = f + 1 := ⟨fuel - 1, by simp at hf; omega⟩
    obtain ⟨⟨h1, -⟩, h2⟩ := hp
    have hx : x ≠ head := fun e => hh (by simp [e])
    have hh' : head ∉ xs := fun e => hh (List.mem_cons_of_mem _ e)
    have := sizeLoop_seg xs x (acc + 1) fuel h2 hh' (by simp at hf; omega)
    simp only [sizeLoop, h1, hx, ne_eq, not_false_eq_true, if_true, this]
    simp
    omega

/-- With enough fuel `dlinkedlist_size` returns the length of the traversal. -/
theorem size_of_traversal {m : Mem} {head : Node} {l : List Node} (h : Traversal m head l)
    {fuel : Nat} (hf : l.length < fuel) :
    dlinkedlist_size fuel m head = some (l.length : Int) := by
  have := sizeLoop_seg l head 0 fuel h.1 (List.nodup_cons.1 h.2).1 hf
  simpa [dlinkedlist_size] using this

/-! ## Well-formedness in terms of the traversal -/

theorem seg_next_mem {m : Mem} : ∀ (l : List Node) (a b : Node), Path m (a :: (l ++ [b])) →
    ∀ x ∈ a :: l, m.next x ∈ l ++ [b] ∧ m.prev (m.next x) = x
  | [], a, b, hp, x, hx => by
    obtain ⟨⟨h1, h2⟩, -⟩ := hp
    obtain rfl : x = a := by simpa using hx
    simp [h1, h2]
  | y :: ys, a, b, hp, x, hx => by
    obtain ⟨⟨h1, h2⟩, h3⟩ := hp
    rcases List.mem_cons.1 hx with rfl | hx
    · simp [h1, h2]
    · obtain ⟨h4, h5⟩ := seg_next_mem ys y b h3 x hx
      exact ⟨List.mem_cons_of_mem _ h4, h5⟩

theorem seg_prev_mem {m : Mem} : ∀ (l : List Node) (a b : Node), Path m (a :: (l ++ [b])) →
    ∀ y ∈ l ++ [b], m.prev y ∈ a :: l ∧ m.next (m.prev y) = y
  | [], a, b, hp, x, hx => by
    obtain ⟨⟨h1, h2⟩, -⟩ := hp
    obtain rfl : x = b := by simpa using hx
    simp [h1, h2]
  | y :: ys, a, b, hp, x, hx => by
    obtain ⟨⟨h1, h2⟩, h3⟩ := hp
    rcases List.mem_cons.1 hx with rfl | hx
    · simp [h1, h2]
    · obtain ⟨h4, h5⟩ := seg_prev_mem ys y b h3 x hx
      exact ⟨List.mem_cons_of_mem _ h4, h5⟩

theorem seg_iterate {m : Mem} : ∀ (l : List Node) (a b : Node), Path m (a :: (l ++ [b])) →
    (m.next)^[l.length + 1] a = b
  | [], a, b, hp => by
    obtain ⟨⟨h1, -⟩, -⟩ := hp
    simpa using h1
  | y :: ys, a, b, hp => by
    obtain ⟨⟨h1, -⟩, h3⟩ := hp
    have := seg_iterate ys y b h3
    rw [List.length_cons, Function.iterate_succ_apply, h1]
    exact this

theorem seg_reach {m : Mem} : ∀ (l : List Node) (a b : Node), Path m (a :: (l ++ [b])) →
    ∀ x ∈ a :: l, Reach m a x
  | [], a, b, _, x, hx => by
    obtain rfl : x = a := by simpa using hx
    exact ⟨0, rfl⟩
  | y :: ys, a, b, hp, x, hx => by
    obtain ⟨⟨h1, -⟩, h3⟩ := hp
    rcases List.mem_cons.1 hx with rfl | hx
    · exact ⟨0, rfl⟩
    · obtain ⟨j, hj⟩ := seg_reach ys y b h3 x hx
      exact ⟨j + 1, by rw [Function.iterate_succ_apply, h1, hj]⟩

theorem mem_ring_iff (head : Node) (l : List Node) (x : Node) :
    x ∈ l ++ [head] ↔ x ∈ head :: l := by
  simp
  tauto

/-- The nodes reachable from the head are the head and the nodes of the traversal. -/
theorem reach_iff_mem {m : Mem} {head : Node} {l : List Node} (h : Traversal m head l)
    (n : Node) : Reach m head n ↔ n ∈ head :: l := by
  constructor
  · rintro ⟨j, rfl⟩
    induction j with
    | zero => simp
    | succ j ih =>
      rw [Function.iterate_succ_apply']
      exact (mem_ring_iff head l _).1 (seg_next_mem l head head h.1 _ ih).1
  · exact seg_reach l head head h.1 n

theorem wellFormed_of_traversal {m : Mem} {head : Node} {l : List Node}
    (h : Traversal m head l) : WellFormed m head := by
  refine ⟨⟨l.length, seg_iterate l head head h.1⟩, fun n hn => ?_⟩
  have hm := (reach_iff_mem h n).1 hn
  exact ⟨(seg_next_mem l head head h.1 n hm).2,
    (seg_prev_mem l head head h.1 n ((mem_ring_iff head l n).2 hm)).2⟩

theorem seg_of_links {m : Mem} : ∀ (k : Nat) (a : Node),
    (∀ n, Reach m a n → m.prev (m.next n) = n) →
    Path m (a :: ((List.range k).map (fun j => (m.next)^[j + 1] a) ++ [(m.next)^[k + 1] a]))
  | 0, a, hl => by
    simp [Path, Link, hl a ⟨0, rfl⟩]
  | k + 1, a, hl => by
    have hl' : ∀ n, Reach m (m.next a) n → m.prev (m.next n) = n := by
      rintro n ⟨j, hj⟩
      exact hl n ⟨j + 1, by rw [Function.iterate_succ_apply, hj]⟩
    have ih := seg_of_links k (m.next a) hl'
    rw [List.range_succ_eq_map]
    simp only [List.map_cons, List.map_map, List.cons_append, path_cons_cons]
    refine ⟨⟨by simp, by simpa using hl a ⟨0, rfl⟩⟩, ?_⟩
    simpa [Function.comp_def] using ih

theorem iterate_cancel {m : Mem} {head : Node}
    (hl : ∀ n, Reach m head n → m.prev (m.next n) = n) :
    ∀ i d : Nat, (m.next)^[i] head = (m.next)^[i + d] head → head = (m.next)^[d] head
  | 0, d, h => by simpa using h
  | i + 1, d, h => by
    apply iterate_cancel hl i d
    have e : i + 1 + d = (i + d) + 1 := by omega
    rw [e, Function.iterate_succ_apply', Function.iterate_succ_apply'] at h
    have := congrArg m.prev h
    rwa [hl _ ⟨i, rfl⟩, hl _ ⟨i + d, rfl⟩] at this

theorem traversal_of_wellFormed {m : Mem} {head : Node} (h : WellFormed m head) :
    ∃ l, Traversal m head l := by
  obtain ⟨hex, hl⟩ := h
  have hl1 : ∀ n, Reach m head n → m.prev (m.next n) = n := fun n hn => (hl n hn).1
  have hk := Nat.find_spec hex
  have hmin : ∀ j, j < Nat.find hex → (m.next)^[j + 1] head ≠ head :=
    fun j hj => Nat.find_min hex hj
  refine ⟨(List.range (Nat.find hex)).map (fun j => (m.next)^[j + 1] head), ?_, ?_⟩
  · have := seg_of_links (Nat.find hex) head hl1
    rwa [hk] at this
  · have e : head :: (List.range (Nat.find hex)).map (fun j => (m.next)^[j + 1] head) =
        (List.range (Nat.find hex + 1)).map (fun j => (m.next)^[j] head) := by
      rw [List.range_succ_eq_map]
      simp [Function.comp_def]
    rw [e]
    have key : ∀ x y : Nat, x < y → y < Nat.find hex + 1 →
        (m.next)^[x] head ≠ (m.next)^[y] head := by
      intro x y hxy hy he
      obtain ⟨d, rfl⟩ : ∃ d, y = x + (d + 1) := ⟨y - x - 1, by omega⟩
      have := iterate_cancel hl1 x (d + 1) he
      exact hmin d (by omega) this.symm
    refine List.Nodup.map_on ?_ (List.nodup_range _)
    intro x hx y hy hxy
    rw [List.mem_range] at hx hy
    rcases Nat.lt_trichotomy x y with h1 | h1 | h1
    · exact absurd hxy (key x y h1 hy)
    · exact h1
    · exact absurd hxy.symm (key y x h1 hx)

/-- Well-formedness is the existence of a forward traversal. -/
theorem wellFormed_iff {m : Mem} {head : Node} :
    WellFormed m head ↔ ∃ l, Traversal m head l :=
  ⟨traversal_of_wellFormed, fun ⟨_, h⟩ => wellFormed_of_traversal h⟩

/-! ## Further facts on traversals -/

theorem seg_unique {m : Mem} {b : Node} : ∀ (l l' : List Node) (a : Node),
    Path m (a :: (l ++ [b])) → Path m (a :: (l' ++ [b])) → b ∉ l → b ∉ l' → l = l'
  | [], [], _, _, _, _, _ => rfl
  | [], y :: ys, a, h, h', _, hb' => by
    obtain ⟨⟨h1, -⟩, -⟩ := h
    obtain ⟨⟨h2, -⟩, -⟩ := h'
    exact absurd (by rw [← h1, h2]; simp) hb'
  | x :: xs, [], a, h, h', hb, _ => by
    obtain ⟨⟨h1, -⟩, -⟩ := h
    obtain ⟨⟨h2, -⟩, -⟩ := h'
    exact absurd (by rw [← h2, h1]; simp) hb
  | x :: xs, y :: ys, a, h, h', hb, hb' => by
    obtain ⟨⟨h1, -⟩, h3⟩ := h
    obtain ⟨⟨h2, -⟩, h4⟩ := h'
    obtain rfl : x = y := by rw [← h1, h2]
    rw [seg_unique xs ys x h3 h4 (fun e => hb (List.mem_cons_of_mem _ e))
      (fun e => hb' (List.mem_cons_of_mem _ e))]

/-- A list has one forward traversal only. -/
theorem traversal_unique {m : Mem} {head : Node} {l l' : List Node}
    (h : Traversal m head l) (h' : Traversal m head l') : l = l' :=
  seg_unique l l' head h.1 h'.1 (List.nodup_cons.1 h.2).1 (List.nodup_cons.1 h'.2).1

theorem reach_trans {m : Mem} {a b c : Node} (h1 : Reach m a b) (h2 : Reach m b c) :
    Reach m a c := by
  obtain ⟨i, rfl⟩ := h1
  obtain ⟨j, rfl⟩ := h2
  exact ⟨j + i, by rw [Function.iterate_add_apply]⟩

/-- In a circular list the head is reachable from every node. -/
theorem reach_head {m : Mem} {head : Node} {l : List Node} (h : Traversal m head l)
    {x : Node} (hx : x ∈ head :: l) : Reach m x head := by
  rcases List.mem_cons.1 hx with rfl | hx
  · exact ⟨0, rfl⟩
  · obtain ⟨l₁, l₂, rfl⟩ := List.append_of_mem hx
    have h' := (traversal_rotate m head x l₁ l₂).1 h
    exact (reach_iff_mem h' head).2 (by simp)

/-- Two lists of which one head is not a node of the other share no node. -/
theorem rings_disjoint {m : Mem} {list head : Node} {B A : List Node}
    (hB : Traversal m list B) (hA : Traversal m head A) (hd : ¬ Reach m head list) :
    ∀ x ∈ list :: B, x ∉ head :: A := by
  intro x hx hx'
  exact hd (reach_trans ((reach_iff_mem hA x).2 hx') (reach_head hB hx))

/-- No node of a non-empty list is self-linked. -/
theorem next_ne_self {m : Mem} {head : Node} {l : List Node} (h : Traversal m head l)
    (hl : l ≠ []) {x : Node} (hx : x ∈ head :: l) : m.next x ≠ x := by
  rcases List.mem_cons.1 hx with rfl | hx
  · cases l with
    | nil => exact absurd rfl hl
    | cons y ys =>
      rw [(traversal_first_links h).1]
      intro e
      have := h.2
      simp [e] at this
  · obtain ⟨l₁, l₂, rfl⟩ := List.append_of_mem hx
    have h' := (traversal_rotate m head x l₁ l₂).1 h
    cases l₂ with
    | nil =>
      rw [(traversal_first_links (by simpa using h')).1]
      intro e
      have := h.2
      simp [e] at this
    | cons y ys =>
      rw [(traversal_first_links (by simpa using h')).1]
      intro e
      have := h'.2
      simp [e] at this

theorem empty_iff_traversal_nil (m : Mem) (head : Node) :
    dlinkedlist_empty m head = true ↔ Traversal m head [] := by
  rw [traversal_nil_iff]
  simp [dlinkedlist_empty]

theorem empty_eq_false_of_cons {m : Mem} {head x : Node} {l : List Node}
    (h : Traversal m head (x :: l)) : dlinkedlist_empty m head = false := by
  have hx : x ≠ head := fun e => by have := h.2; simp [e] at this
  simp [dlinkedlist_empty, (traversal_first_links h).1, hx]

/-! ## Effect on the counters -/

theorem add_cell (m : Mem) (node p n : Node) (c : Nat) (x : Nat) :
    (__dlinkedlist_add m node p n (some c)).cell x =
      if x = c then m.cell c + 1 else m.cell x := by
  simp [__dlinkedlist_add]

theorem remove_cell {m : Mem} {n : Node} (hl : m.prev (m.next n) = n)
    (hne : m.next n ≠ n) (c : Nat) (x : Nat) :
    (dlinkedlist_remove m n (some c)).cell x =
      if x = c then m.cell c - 1 else m.cell x := by
  rw [remove_relinks hl hne]
  simp

theorem member_links {m : Mem} {head n : Node} {l : List Node} (h : Traversal m head l)
    (hn : n ∈ l) : m.prev (m.next n) = n ∧ m.next n ≠ n :=
  ⟨(seg_next_mem l head head h.1 n (List.mem_cons_of_mem _ hn)).2,
    next_ne_self h (List.ne_nil_of_mem hn) (List.mem_cons_of_mem _ hn)⟩

/-! ## The whole of split -/

theorem not_mem_of_empty {m : Mem} {head list : Node} {l : List Node}
    (h : Traversal m head l) (hl : dlinkedlist_empty m list = true) (hne : list ≠ head) :
    list ∉ head :: l := by
  intro hx
  have hl' := (traversal_nil_iff m list).1 ((empty_iff_traversal_nil m list).1 hl)
  cases l with
  | nil => simp at hx; exact hne hx
  | cons y ys => exact next_ne_self h (by simp) hx hl'.1

/-- A split at a member of the list, with an empty second list and enough fuel for the
two traversals that recompute the sizes, returns the relinked memory, the two counters
(when both are supplied) set to the two lengths. -/
theorem split_eq_some {m : Mem} {head list n : Node} {l₁ l₂ : List Node}
    (h : Traversal m head (l₁ ++ n :: l₂)) (hl : dlinkedlist_empty m list = true)
    (hne : list ≠ head) (hs ls : Option Nat) (fuel : Nat)
    (hf : (l₁ ++ n :: l₂).length < fuel) :
    dlinkedlist_split fuel m head list n hs ls =
      some (match hs, ls with
        | some a, some b =>
          ((splitRelinked m head list n).setCell a l₁.length).setCell b (l₂.length + 1)
        | _, _ => splitRelinked m head list n) := by
  have hmem := not_mem_of_empty h hl hne
  obtain ⟨t1, t2⟩ := traversal_splitRelinked h hmem
  have hhe : dlinkedlist_empty m head = false := by
    cases l₁ with
    | nil => exact empty_eq_false_of_cons (by simpa using h)
    | cons y ys => exact empty_eq_false_of_cons (by simpa using h)
  have hhn : head ≠ n := fun e => by
    have := h.2
    simp [e] at this
  have hf1 : l₁.length < fuel := by simp at hf; omega
  have hf2 : (n :: l₂).length < fuel := by simp at hf ⊢; omega
  simp only [dlinkedlist_split, hl, hhe, hhn, Bool.not_true, Bool.false_eq_true, if_false]
  rw [split_eq]
  cases hs with
  | none => rfl
  | some a =>
    cases ls with
    | none => rfl
    | some b =>
      have s1 := size_of_traversal t1 hf1
      have s2 : dlinkedlist_size fuel
          ((splitRelinked m head list n).setCell a (l₁.length : Int)) list =
          some (((n :: l₂).length : Nat) : Int) := by
        rw [@size_congr (splitRelinked m head list n)
          ((splitRelinked m head list n).setCell a (l₁.length : Int)) rfl]
        exact size_of_traversal t2 hf2
      simp only [s1, s2]
      simp

theorem split_traversal {m : Mem} {head list n : Node} {l₁ l₂ : List Node}
    (h : Traversal m head (l₁ ++ n :: l₂)) (hl : dlinkedlist_empty m list = true)
    (hne : list ≠ head) (hs ls : Option Nat) (fuel : Nat)
    (hf : (l₁ ++ n :: l₂).length < fuel) :
    ∃ m', dlinkedlist_split fuel m head list n hs ls = some m' ∧
      Traversal m' head l₁ ∧ Traversal m' list (n :: l₂) := by
  refine ⟨_, split_eq_some h hl hne hs ls fuel hf, ?_⟩
  obtain ⟨t1, t2⟩ := traversal_splitRelinked h (not_mem_of_empty h hl hne)
  cases hs with
  | none => exact ⟨t1, t2⟩
  | some a =>
    cases ls with
    | none => exact ⟨t1, t2⟩
    | some b =>
      have e := @traversal_congr (splitRelinked m head list n)
        (((splitRelinked m head list n).setCell a (l₁.length : Int)).setCell b
          ((l₂.length : Int) + 1)) rfl rfl
      exact ⟨(e _ _).2 t1, (e _ _).2 t2⟩

/-! ## Preservation of well-formedness -/

theorem traversal_init_head (m : Mem) (head : Node) (size : Option Nat) :
    Traversal (dlinkedlist_init_head m head size) head [] := by
  rw [traversal_nil_iff]
  cases size <;> simp [dlinkedlist_init_head]

theorem exists_traversal_add {m : Mem} {head : Node} {l : List Node}
    (h : Traversal m head l) {anchor node : Node} (ha : anchor ∈ head :: l)
    (hn : node ∉ head :: l) (size : Option Nat) :
    (∃ l', Traversal (dlinkedlist_add_after m anchor node size) head l' ∧
        l'.length = l.length + 1) ∧
      ∃ l', Traversal (dlinkedlist_add_before m anchor node size) head l' ∧
        l'.length = l.length + 1 := by
  rcases List.mem_cons.1 ha with rfl | ha
  · exact ⟨⟨_, traversal_add_head h hn size, by simp⟩, ⟨_, traversal_add_tail h hn size, by simp⟩⟩
  · obtain ⟨l₁, l₂, rfl⟩ := List.append_of_mem ha
    exact ⟨⟨_, traversal_add_after h hn size, by simp; omega⟩,
      ⟨_, traversal_add_before h hn size, by simp; omega⟩⟩

theorem exists_traversal_remove {m : Mem} {head : Node} {l : List Node}
    (h : Traversal m head l) {node : Node} (hn : node ∈ l) (size : Option Nat) :
    ∃ l', Traversal (dlinkedlist_remove m node size) head l' ∧ l'.length + 1 = l.length := by
  obtain ⟨l₁, l₂, rfl⟩ := List.append_of_mem hn
  exact ⟨_, traversal_remove h size, by simp; omega⟩

/-- C1: well-formedness (the `next` chain from the head returns to the head and every node
`n` on it has `n->next->prev == n` and `n->prev->next == n`) is preserved by every list
operation under its precondition: `init_head` (from any memory); `add_head`, `add_tail`,
`add_after` and `add_before` of a node that is not in the list (the anchor being a node of
the list); `remove` of a member other than the head; `splice` of two distinct well-formed
lists, the head of the one not being a node of the other (both well-formed afterwards);
`split` at a member other than the head with an empty second list (with enough fuel for
the size loops the call returns, and both lists are well-formed afterwards). -/
theorem C1_wellFormed_preserved :
    (∀ (m : Mem) (head : Node) (size : Option Nat),
      WellFormed (dlinkedlist_init_head m head size) head) ∧
    (∀ (m : Mem) (head node : Node) (size : Option Nat),
      WellFormed m head → ¬ Reach m head node →
        WellFormed (dlinkedlist_add_head m head node size) head ∧
        WellFormed (dlinkedlist_add_tail m head node size) head) ∧
    (∀ (m : Mem) (head anchor node : Node) (size : Option Nat),
      WellFormed m head → Reach m head anchor → ¬ Reach m head node →
        WellFormed (dlinkedlist_add_after m anchor node size) head ∧
        WellFormed (dlinkedlist_add_before m anchor node size) head) ∧
    (∀ (m : Mem) (head node : Node) (size : Option Nat),
      WellFormed m head → Reach m head node → node ≠ head →
        WellFormed (dlinkedlist_remove m node size) head) ∧
    (∀ (m : Mem) (list head : Node) (listSize headSize : Option Nat),
      WellFormed m list → WellFormed m head → ¬ Reach m head list →
        WellFormed (dlinkedlist_splice m list head listSize headSize) head ∧
        WellFormed (dlinkedlist_splice m list head listSize headSize) list) ∧
    (∀ (m : Mem) (head list node : Node) (headSize listSize : Option Nat),
      WellFormed m head → Reach m head node → node ≠ head →
      dlinkedlist_empty m list = true →
        ∃ N, ∀ fuel, N ≤ fuel → ∃ m',
          dlinkedlist_split fuel m head list node headSize listSize = some m' ∧
          WellFormed m' head ∧ WellFormed m' list) := by
  refine ⟨?_, ?_, ?_, ?_, ?_, ?_⟩
  · intro m head size
    exact wellFormed_of_traversal (traversal_init_head m head size)
  · intro m head node size hw hn
    obtain ⟨l, h⟩ := traversal_of_wellFormed hw
    have hn' : node ∉ head :: l := fun e => hn ((reach_iff_mem h node).2 e)
    exact ⟨wellFormed_of_traversal (traversal_add_head h hn' size),
      wellFormed_of_traversal (traversal_add_tail h hn' size)⟩
  · intro m head anchor node size hw ha hn
    obtain ⟨l, h⟩ := traversal_of_wellFormed hw
    have hn' : node ∉ head :: l := fun e => hn ((reach_iff_mem h node).2 e)
    obtain ⟨⟨l1, h1, -⟩, ⟨l2, h2, -⟩⟩ :=
      exists_traversal_add h ((reach_iff_mem h anchor).1 ha) hn' size
    exact ⟨wellFormed_of_traversal h1, wellFormed_of_traversal h2⟩
  · intro m head node size hw hr hne
    obtain ⟨l, h⟩ := traversal_of_wellFormed hw
    have hn' : node ∈ l := by
      rcases List.mem_cons.1 ((reach_iff_mem h node).1 hr) with e | e
      · exact absurd e hne
      · exact e
    obtain ⟨l', h', -⟩ := exists_traversal_remove h hn' size
    exact wellFormed_of_traversal h'
  · intro m list head ls hs hwl hwh hd
    obtain ⟨B, hB⟩ := traversal_of_wellFormed hwl
    obtain ⟨A, hA⟩ := traversal_of_wellFormed hwh
    cases B with
    | nil =>
      have he := (empty_iff_traversal_nil m list).2 hB
      simp only [dlinkedlist_splice, he, if_true]
      exact ⟨hwh, hwl⟩
    | cons b B =>
      obtain ⟨h1, h2⟩ := traversal_splice hB hA (rings_disjoint hB hA hd) ls hs
      exact ⟨wellFormed_of_traversal h1, wellFormed_of_traversal h2⟩
  · intro m head list node hs ls hw hr hne he
    obtain ⟨l, h⟩ := traversal_of_wellFormed hw
    have hn' : node ∈ l := by
      rcases List.mem_cons.1 ((reach_iff_mem h node).1 hr) with e | e
      · exact absurd e hne
      · exact e
    obtain ⟨l₁, l₂, rfl⟩ := List.append_of_mem hn'
    have hlh : list ≠ head := by
      rintro rfl
      have := (empty_iff_traversal_nil m list).1 he
      have := traversal_unique h this
      simp at this
    refine ⟨(l₁ ++ node :: l₂).length + 1, fun fuel hf => ?_⟩
    obtain ⟨m', e, t1, t2⟩ := split_traversal h he hlh hs ls fuel (by omega)
    exact ⟨m', e, wellFormed_of_traversal t1, wellFormed_of_traversal t2⟩

/-- C1 at work: the list at head `1` with elements `2, 3` is well-formed, node `5` is not
in it, and it is still well-formed after `add_head` and after `add_tail` of node `5`. -/
theorem C1_wellFormed_preserved_witness :
    WellFormed (dlinkedlist_add_head mem23 1 5 (some 0)) 1 ∧
      WellFormed (dlinkedlist_add_tail mem23 1 5 (some 0)) 1 :=
  C1_wellFormed_preserved.2.1 mem23 1 5 (some 0)
    (wellFormed_of_traversal (show Traversal mem23 1 [2, 3] by decide))
    (fun h => absurd ((reach_iff_mem (show Traversal mem23 1 [2, 3] by decide) 5).1 h)
      (by decide))

/-! ## Splice and split -/

/-- C2: for distinct well-formed lists `list` (the source, with elements `B`, non-empty)
and `head` (the destination, with elements `A`, possibly empty), the head of the source
not being a node of the destination, `splice(list, head)` leaves `head` with forward
traversal `B ++ A` and leaves the source empty (`list->next == list->prev == list`,
`dlinkedlist_empty` true), so that a following `add_tail` of any other node on `list`
yields a well-formed list with that one element. -/
theorem C2_splice_order (m : Mem) (list head : Node) (B A : List Node)
    (listSize headSize : Option Nat) (hB : Traversal m list B) (hne : B ≠ [])
    (hA : Traversal m head A) (hd : list ∉ head :: A) :
    Traversal (dlinkedlist_splice m list head listSize headSize) head (B ++ A) ∧
    (dlinkedlist_splice m list head listSize headSize).next list = list ∧
    (dlinkedlist_splice m list head listSize headSize).prev list = list ∧
    dlinkedlist_empty (dlinkedlist_splice m list head listSize headSize) list = true ∧
    ∀ (v : Node) (size : Option Nat), v ≠ list →
      Traversal (dlinkedlist_add_tail (dlinkedlist_splice m list head listSize headSize)
        list v size) list [v] ∧
      WellFormed (dlinkedlist_add_tail (dlinkedlist_splice m list head listSize headSize)
        list v size) list := by
  cases B with
  | nil => exact absurd rfl hne
  | cons b B =>
    have hd' : ¬ Reach m head list := fun e => hd ((reach_iff_mem hA list).1 e)
    obtain ⟨h1, h2⟩ := traversal_splice hB hA (rings_disjoint hB hA hd') listSize headSize
    obtain ⟨h3, h4⟩ := (traversal_nil_iff _ _).1 h2
    refine ⟨h1, h3, h4, (empty_iff_traversal_nil _ _).2 h2, fun v size hv => ?_⟩
    have h5 := traversal_add_tail h2 (by simpa using hv) size
    exact ⟨by simpa using h5, wellFormed_of_traversal h5⟩

/-- C2 at work: the list at head `1` with elements `2, 3` spliced onto the list at head
`6` with the element `7`. -/
theorem C2_splice_order_witness :
    Traversal (dlinkedlist_splice (dlinkedlist_add_tail (dlinkedlist_init_head mem23 6 none)
      6 7 none) 1 6 (some 0) none) 6 ([2, 3] ++ [7]) :=
  (C2_splice_order (dlinkedlist_add_tail (dlinkedlist_init_head mem23 6 none) 6 7 none) 1 6
    [2, 3] [7] (some 0) none (by decide) (by decide) (by decide) (by decide)).1

/-- C3: for a well-formed list `head` with elements `l₁ ++ e :: l₂` (so `e` is its
element of index `l₁.length`) and every empty list `list` distinct from `head`,
`split(head, list, e)`, given enough fuel for the loops that recompute the sizes, returns
and leaves `head` with forward traversal `l₁` and `list` with forward traversal `e :: l₂`;
in particular a split at the first element (`l₁ = []`) leaves `head` empty and moves all
the elements into `list`. -/
theorem C3_split_order (m : Mem) (head list e : Node) (l₁ l₂ : List Node)
    (headSize listSize : Option Nat) (fuel : Nat)
    (h : Traversal m head (l₁ ++ e :: l₂)) (hl : dlinkedlist_empty m list = true)
    (hne : list ≠ head) (hf : (l₁ ++ e :: l₂).length < fuel) :
    ∃ m', dlinkedlist_split fuel m head list e headSize listSize = some m' ∧
      Traversal m' head l₁ ∧ Traversal m' list (e :: l₂) ∧
      (l₁ = [] → dlinkedlist_empty m' head = true ∧ Traversal m' list (l₁ ++ e :: l₂)) := by
  obtain ⟨m', e1, t1, t2⟩ := split_traversal h hl hne headSize listSize fuel hf
  refine ⟨m', e1, t1, t2, ?_⟩
  rintro rfl
  exact ⟨(empty_iff_traversal_nil _ _).2 t1, by simpa using t2⟩

/-- C3 at work: the list `2, 3` at head `1` split at `3` into the empty list at `4`. -/
theorem C3_split_order_witness :
    ∃ m', dlinkedlist_split 3 mem23 1 4 3 (some 0) (some 1) = some m' ∧
      Traversal m' 1 [2] ∧ Traversal m' 4 (3 :: []) ∧
      ([2] = [] → dlinkedlist_empty m' 1 = true ∧ Traversal m' 4 ([2] ++ 3 :: [])) :=
  C3_split_order mem23 1 4 3 [2] [] (some 0) (some 1) 3 (by decide) (by decide) (by decide)
    (by decide)

/-- C4, as stated, fails: the list `2, 3` at head `1` is well-formed and the list at `4`
is empty, yet splitting at the element of index 1 (node `3`) into `4` and splicing `4`
back onto `1` does not give back the traversal `2, 3`: it gives `3, 2`. -/
theorem C4_split_splice_counterexample :
    Traversal mem23 1 [2, 3] ∧ dlinkedlist_empty mem23 4 = true ∧
    (¬ ∃ m', dlinkedlist_split 3 mem23 1 4 3 none none = some m' ∧
      Traversal (dlinkedlist_splice m' 4 1 none none) 1 [2, 3]) ∧
    ∃ m', dlinkedlist_split 3 mem23 1 4 3 none none = some m' ∧
      Traversal (dlinkedlist_splice m' 4 1 none none) 1 [3, 2] := by
  have e : dlinkedlist_split 3 mem23 1 4 3 none none = some (splitRelinked mem23 1 4 3) :=
    @split_eq_some mem23 1 4 3 [2] [] (by decide) (by decide) (by decide) none none 3
      (by decide)
  refine ⟨by decide, by decide, ?_, ⟨_, e, by decide⟩⟩
  rintro ⟨m', e', t⟩
  rw [e] at e'
  obtain rfl := Option.some.inj e'
  revert t
  decide

/-- C4, amended: splitting a well-formed list with elements `l₁ ++ e :: l₂` at `e` into an
empty second list and splicing the second list back onto the first leaves the first list
with the traversal `e :: l₂ ++ l₁`, the original one rotated so that it starts at the
separator, and the second list empty; that is the original traversal exactly when the
separator is the first element (`l₁ = []`). -/
theorem C4_split_splice_rotates (m : Mem) (head list e : Node) (l₁ l₂ : List Node)
    (headSize listSize listSize' headSize' : Option Nat) (fuel : Nat)
    (h : Traversal m head (l₁ ++ e :: l₂)) (hl : dlinkedlist_empty m list = true)
    (hne : list ≠ head) (hf : (l₁ ++ e :: l₂).length < fuel) :
    ∃ m', dlinkedlist_split fuel m head list e headSize listSize = some m' ∧
      Traversal (dlinkedlist_splice m' list head listSize' headSize') head (e :: l₂ ++ l₁) ∧
      Traversal (dlinkedlist_splice m' list head listSize' headSize') list [] ∧
      (Traversal (dlinkedlist_splice m' list head listSize' headSize') head (l₁ ++ e :: l₂) ↔
        l₁ = []) := by
  obtain ⟨m', e1, t1, t2⟩ := split_traversal h hl hne headSize listSize fuel hf
  have hmem := not_mem_of_empty h hl hne
  have hd : ¬ Reach m' head list := fun r => by
    have := (reach_iff_mem t1 list).1 r
    apply hmem
    simp at this ⊢
    tauto
  obtain ⟨s1, s2⟩ := traversal_splice t2 t1 (rings_disjoint t2 t1 hd) listSize' headSize'
  refine ⟨m', e1, s1, s2, ⟨fun t => ?_, ?_⟩⟩
  · have e2 := traversal_unique s1 t
    cases l₁ with
    | nil => rfl
    | cons x xs =>
      have hnd := h.2
      simp at e2
      simp [e2.1] at hnd
  · rintro rfl
    simpa using s1

/-- C4, amended, at work: the list `2, 3` at head `1` split at `3` and spliced back. -/
theorem C4_split_splice_rotates_witness :
    ∃ m', dlinkedlist_split 3 mem23 1 4 3 (some 0) (some 1) = some m' ∧
      Traversal (dlinkedlist_splice m' 4 1 (some 1) (some 0)) 1 (3 :: [] ++ [2]) ∧
      Traversal (dlinkedlist_splice m' 4 1 (some 1) (some 0)) 4 [] ∧
      (Traversal (dlinkedlist_splice m' 4 1 (some 1) (some 0)) 1 ([2] ++ 3 :: []) ↔
        [2] = []) :=
  C4_split_splice_rotates mem23 1 4 3 [2] [] (some 0) (some 1) (some 1) (some 0) 3
    (by decide) (by decide) (by decide) (by decide)

/-! ## The maintained counter -/

theorem op_step {m : Mem} {head : Node} {c : Nat} {l : List Node}
    (h : Traversal m head l) (hc : m.cell c = l.length) (op : ListOp) (hpre : op.Pre m head) :
    ∃ l', Traversal (op.apply m head (some c)) head l' ∧
      (op.apply m head (some c)).cell c = l'.length := by
  have hnot : ∀ node, ¬ Reach m head node → node ∉ head :: l :=
    fun node hn e => hn ((reach_iff_mem h node).2 e)
  cases op with
  | add_head node =>
    exact ⟨_, traversal_add_head h (hnot node hpre) (some c), by
      simp [ListOp.apply, dlinkedlist_add_head, add_cell, hc]⟩
  | add_tail node =>
    exact ⟨_, traversal_add_tail h (hnot node hpre) (some c), by
      simp [ListOp.apply, dlinkedlist_add_tail, add_cell, hc]⟩
  | add_after anchor node =>
    obtain ⟨⟨l', h', hlen⟩, -⟩ :=
      exists_traversal_add h ((reach_iff_mem h anchor).1 hpre.1) (hnot node hpre.2) (some c)
    exact ⟨l', h', by simp [ListOp.apply, dlinkedlist_add_after, add_cell, hc, hlen]⟩
  | add_before anchor node =>
    obtain ⟨-, ⟨l', h', hlen⟩⟩ :=
      exists_traversal_add h ((reach_iff_mem h anchor).1 hpre.1) (hnot node hpre.2) (some c)
    exact ⟨l', h', by simp [ListOp.apply, dlinkedlist_add_before, add_cell, hc, hlen]⟩
  | remove node =>
    have hn : node ∈ l := by
      rcases List.mem_cons.1 ((reach_iff_mem h node).1 hpre.1) with e | e
      · exact absurd e hpre.2
      · exact e
    obtain ⟨l', h', hlen⟩ := exists_traversal_remove h hn (some c)
    obtain ⟨k1, k2⟩ := member_links h hn
    refine ⟨l', h', ?_⟩
    simp only [ListOp.apply, remove_cell k1 k2, if_true, hc]
    rw [← hlen]
    simp

theorem ops_invariant {head : Node} {c : Nat} : ∀ (ops : List ListOp) (m : Mem) (l : List Node),
    Traversal m head l → m.cell c = l.length → OpsOk head (some c) m ops →
    ∃ l', Traversal (runOps head (some c) m ops) head l' ∧
      (runOps head (some c) m ops).cell c = l'.length
  | [], m, l, h, hc, _ => ⟨l, h, hc⟩
  | op :: ops, m, l, h, hc, hok => by
    obtain ⟨l', h', hc'⟩ := op_step h hc op hok.1
    exact ops_invariant ops _ l' h' hc' hok.2

/-- C5: starting from `init_head(head, &counter)`, after every finite sequence of
`add_head`/`add_tail`/`add_after`/`add_before` calls (each with a node that is not in the
list, the anchor being in it) and `remove` calls (each on a member other than the head),
all passing the same counter, `dlinkedlist_size(head)` returns (with enough fuel for its
loop) and its result is the value of the counter. -/
theorem C5_counter_is_size (m₀ : Mem) (head : Node) (c : Nat) (ops : List ListOp)
    (hok : OpsOk head (some c) (dlinkedlist_init_head m₀ head (some c)) ops) :
    ∃ N, ∀ fuel, N ≤ fuel →
      dlinkedlist_size fuel (runOps head (some c) (dlinkedlist_init_head m₀ head (some c)) ops)
          head =
        some ((runOps head (some c) (dlinkedlist_init_head m₀ head (some c)) ops).cell c) := by
  obtain ⟨l, h, hc⟩ := ops_invariant ops _ [] (traversal_init_head m₀ head (some c))
    (by simp [dlinkedlist_init_head]) hok
  refine ⟨l.length + 1, fun fuel hf => ?_⟩
  rw [hc]
  exact size_of_traversal h (by omega)

theorem not_reach_of {m : Mem} {head : Node} {l : List Node} (h : Traversal m head l)
    {node : Node} (hn : node ∉ head :: l) : ¬ Reach m head node :=
  fun e => hn ((reach_iff_mem h node).1 e)

theorem reach_of {m : Mem} {head : Node} {l : List Node} (h : Traversal m head l)
    {node : Node} (hn : node ∈ head :: l) : Reach m head node :=
  (reach_iff_mem h node).2 hn

/-- C5 at work: `add_tail 2`, `add_after 2 3`, `remove 2`, `add_before 3 5` on the list at
head `1` with the counter `0`. -/
theorem C5_counter_is_size_witness :
    ∃ N, ∀ fuel, N ≤ fuel →
      dlinkedlist_size fuel (runOps 1 (some 0) (dlinkedlist_init_head Mem.blank 1 (some 0))
          [.add_tail 2, .add_after 2 3, .remove 2, .add_before 3 5]) 1 =
        some ((runOps 1 (some 0) (dlinkedlist_init_head Mem.blank 1 (some 0))
          [.add_tail 2, .add_after 2 3, .remove 2, .add_before 3 5]).cell 0) :=
  C5_counter_is_size Mem.blank 1 0 [.add_tail 2, .add_after 2 3, .remove 2, .add_before 3 5]
    ⟨not_reach_of (l := []) (by decide) (by decide),
      ⟨reach_of (l := [2]) (by decide) (by decide),
        not_reach_of (l := [2]) (by decide) (by decide)⟩,
      ⟨reach_of (l := [2, 3]) (by decide) (by decide), by decide⟩,
      ⟨reach_of (l := [3]) (by decide) (by decide),
        not_reach_of (l := [3]) (by decide) (by decide)⟩, trivial⟩

/-! ## Remove -/

theorem traversal_removeFront {head : Node} (size : Option Nat) :
    ∀ (j : Nat) (m : Mem) (L : List Node), Traversal m head L → j ≤ L.length →
      Traversal (removeFront head size j m) head (L.drop j)
  | 0, _, _, h, _ => by simpa [removeFront] using h
  | j + 1, m, [], _, hj => by simp at hj
  | j + 1, m, x :: xs, h, hj => by
    have h1 : m.next head = x := (traversal_first_links h).1
    have h2 : Traversal (dlinkedlist_remove m x size) head ([] ++ xs) :=
      @traversal_remove m head x [] xs (by simpa using h) size
    simp only [removeFront, h1, List.drop_succ_cons]
    exact traversal_removeFront size j _ xs (by simpa using h2) (by simpa using hj)

/-- C6: for a well-formed list with elements `L` and an element `n` of it, `remove(n)`
yields the list whose forward traversal is `L` with `n` deleted, the other elements in
their original order; `n` is no longer reachable from the head and its former neighbours
point at each other.  Consequently removing the first element `j` times leaves the
elements of `L` from index `j` on, in order, and after `L.length` removals the list is
empty. -/
theorem C6_remove_order (m : Mem) (head n : Node) (L : List Node) (size : Option Nat)
    (h : Traversal m head L) (hn : n ∈ L) :
    Traversal (dlinkedlist_remove m n size) head (L.erase n) ∧
    n ∉ L.erase n ∧
    ¬ Reach (dlinkedlist_remove m n size) head n ∧
    (dlinkedlist_remove m n size).next (m.prev n) = m.next n ∧
    (dlinkedlist_remove m n size).prev (m.next n) = m.prev n ∧
    (∀ j, j ≤ L.length → Traversal (removeFront head size j m) head (L.drop j)) ∧
    dlinkedlist_empty (removeFront head size L.length m) head = true := by
  have hnd : L.Nodup := (List.nodup_cons.1 h.2).2
  obtain ⟨k1, k2⟩ := member_links h hn
  obtain ⟨l₁, l₂, rfl⟩ := List.append_of_mem hn
  have hn1 : n ∉ l₁ := fun e => by
    have := (List.nodup_append.1 hnd).2.2 e (List.mem_cons_self n l₂)
    exact this
  have he : (l₁ ++ n :: l₂).erase n = l₁ ++ l₂ := by
    rw [List.erase_append_right _ hn1, List.erase_cons_head]
  have ht := traversal_remove h size
  have hn2 : n ∉ l₁ ++ l₂ := by
    have := List.nodup_middle.1 hnd
    exact (List.nodup_cons.1 this).1
  have hnh : n ≠ head := fun e => by
    have := h.2
    simp [e] at this
  refine ⟨by rw [he]; exact ht, by rw [he]; exact hn2, ?_, ?_, ?_, ?_, ?_⟩
  · exact fun r => by
      have := (reach_iff_mem ht n).1 r
      simp at this hn2
      tauto
  · simp [remove_next k1 k2]
  · simp [remove_prev k1 k2]
  · exact fun j hj => traversal_removeFront size j m _ h hj
  · have := traversal_removeFront size (l₁ ++ n :: l₂).length m _ h le_rfl
    rw [List.drop_length] at this
    exact (empty_iff_traversal_nil _ _).2 this

/-- C6 at work: removing node `2` from the list `2, 3` at head `1`. -/
theorem C6_remove_order_witness :
    Traversal (dlinkedlist_remove mem23 2 (some 0)) 1 ([2, 3].erase 2) ∧
      dlinkedlist_empty (removeFront 1 (some 0) [2, 3].length mem23) 1 = true :=
  ⟨(C6_remove_order mem23 1 2 [2, 3] (some 0) (by decide) (by decide)).1,
    (C6_remove_order mem23 1 2 [2, 3] (some 0) (by decide) (by decide)).2.2.2.2.2.2⟩

/-- C7, as stated, fails: the list at head `1` has the single element `2` and the
counter holds 5; after `remove` of node `2` the list is empty and the counter holds 4,
not 0. -/
theorem C7_forced_zero_counterexample :
    Traversal mem2 1 [2] ∧ mem2.cell 0 = 5 ∧
    Traversal (dlinkedlist_remove mem2 2 (some 0)) 1 [] ∧
    (dlinkedlist_remove mem2 2 (some 0)).cell 0 = 4 ∧
    (dlinkedlist_remove mem2 2 (some 0)).cell 0 ≠ 0 := by
  decide

/-- C7, amended: for every well-formed list with exactly one element and every value of
the supplied size counter that an `int_least32_t` holds and that is above the least one
(so that the decrement does not overflow), `remove` of that element leaves the list empty
and decrements the counter, which then holds its old value minus one, a value in the
range of the type (and 0 only when it held 1). -/
theorem C7_single_remove_decrements (m : Mem) (head e : Node) (c : Nat)
    (h : Traversal m head [e]) (hlo : INT_LEAST32_MIN < m.cell c)
    (hhi : m.cell c ≤ INT_LEAST32_MAX) :
    Traversal (dlinkedlist_remove m e (some c)) head [] ∧
    dlinkedlist_empty (dlinkedlist_remove m e (some c)) head = true ∧
    (dlinkedlist_remove m e (some c)).cell c = m.cell c - 1 ∧
    InRange32 ((dlinkedlist_remove m e (some c)).cell c) ∧
    ((dlinkedlist_remove m e (some c)).cell c = 0 ↔ m.cell c = 1) := by
  obtain ⟨k1, k2⟩ := member_links h (List.mem_singleton_self e)
  have ht : Traversal (dlinkedlist_remove m e (some c)) head ([] ++ []) :=
    @traversal_remove m head e [] [] (by simpa using h) (some c)
  have hc : (dlinkedlist_remove m e (some c)).cell c = m.cell c - 1 := by
    simp [remove_cell k1 k2]
  refine ⟨by simpa using ht, (empty_iff_traversal_nil _ _).2 (by simpa using ht), hc, ?_, ?_⟩
  · rw [hc]
    simp only [InRange32, INT_LEAST32_MIN, INT_LEAST32_MAX] at hlo hhi ⊢
    omega
  · rw [hc]
    omega

/-- C7, amended, at work: the one-element list at head `1`, the counter holding 5. -/
theorem C7_single_remove_decrements_witness :
    (dlinkedlist_remove mem2 2 (some 0)).cell 0 = mem2.cell 0 - 1 ∧
      InRange32 ((dlinkedlist_remove mem2 2 (some 0)).cell 0) :=
  ⟨(C7_single_remove_decrements mem2 1 2 0 (by decide) (by decide) (by decide)).2.2.1,
    (C7_single_remove_decrements mem2 1 2 0 (by decide) (by decide) (by decide)).2.2.2.1⟩

/-! ## Order of insertion -/

theorem traversal_foldl_add_tail {head : Node} (size : Option Nat) :
    ∀ (vs : List Node) (m : Mem) (L : List Node), Traversal m head L →
      (head :: (L ++ vs)).Nodup →
      Traversal (vs.foldl (fun s x => dlinkedlist_add_tail s head x size) m) head (L ++ vs)
  | [], _, _, h, _ => by simpa using h
  | v :: vs, m, L, h, hnd => by
    have hv : v ∉ head :: L := by
      simp [List.nodup_append] at hnd ⊢
      tauto
    have h1 := traversal_add_tail h hv size
    have h2 := traversal_foldl_add_tail size vs _ (L ++ [v]) h1 (by simpa using hnd)
    simpa using h2

theorem traversal_foldl_add_head {head : Node} (size : Option Nat) :
    ∀ (vs : List Node) (m : Mem) (L : List Node), Traversal m head L →
      (head :: (L ++ vs)).Nodup →
      Traversal (vs.foldl (fun s x => dlinkedlist_add_head s head x size) m) head
        (vs.reverse ++ L)
  | [], _, _, h, _ => by simpa using h
  | v :: vs, m, L, h, hnd => by
    have hv : v ∉ head :: L := by
      simp [List.nodup_append] at hnd ⊢
      tauto
    have h1 := traversal_add_head h hv size
    have hnd' : (head :: ((v :: L) ++ vs)).Nodup := by
      simp [List.nodup_append] at hnd ⊢
      tauto
    have h2 := traversal_foldl_add_head size vs _ (v :: L) h1 hnd'
    simpa using h2

/-- C8: for a well-formed list with elements `L` and a node `v` not in it,
`add_tail(head, v)` yields the forward traversal `L ++ [v]`, with `head->prev == v` and
`v->next == head`; hence adding the distinct nodes `vs` in sequence by `add_tail` to an
empty list yields the forward traversal `vs`. -/
theorem C8_add_tail_order (m : Mem) (head v : Node) (L : List Node) (size : Option Nat)
    (h : Traversal m head L) (hv : v ∉ head :: L) :
    Traversal (dlinkedlist_add_tail m head v size) head (L ++ [v]) ∧
    (dlinkedlist_add_tail m head v size).prev head = v ∧
    (dlinkedlist_add_tail m head v size).next v = head ∧
    ∀ (m₀ : Mem) (vs : List Node), Traversal m₀ head [] → (head :: vs).Nodup →
      Traversal (vs.foldl (fun s x => dlinkedlist_add_tail s head x size) m₀) head vs := by
  have ht := traversal_add_tail h hv size
  obtain ⟨h1, h2⟩ := traversal_head_links ht
  exact ⟨ht, h1, h2, fun m₀ vs h₀ hnd => by
    simpa using traversal_foldl_add_tail size vs m₀ [] h₀ (by simpa using hnd)⟩

/-- C8 at work: node `5` added at the tail of the list `2, 3` at head `1`. -/
theorem C8_add_tail_order_witness :
    Traversal (dlinkedlist_add_tail mem23 1 5 (some 0)) 1 ([2, 3] ++ [5]) :=
  (C8_add_tail_order mem23 1 5 [2, 3] (some 0) (by decide) (by decide)).1

/-- C9: for a well-formed list with elements `L` and a node `v` not in it,
`add_head(head, v)` yields the forward traversal `v :: L`, with `head->next == v` and
`v->prev == head`; hence adding the distinct nodes `vs` in sequence by `add_head` to an
empty list yields the forward traversal `vs` reversed. -/
theorem C9_add_head_order (m : Mem) (head v : Node) (L : List Node) (size : Option Nat)
    (h : Traversal m head L) (hv : v ∉ head :: L) :
    Traversal (dlinkedlist_add_head m head v size) head (v :: L) ∧
    (dlinkedlist_add_head m head v size).next head = v ∧
    (dlinkedlist_add_head m head v size).prev v = head ∧
    ∀ (m₀ : Mem) (vs : List Node), Traversal m₀ head [] → (head :: vs).Nodup →
      Traversal (vs.foldl (fun s x => dlinkedlist_add_head s head x size) m₀) head
        vs.reverse := by
  have ht := traversal_add_head h hv size
  obtain ⟨h1, h2⟩ := traversal_first_links ht
  exact ⟨ht, h1, h2, fun m₀ vs h₀ hnd => by
    simpa using traversal_foldl_add_head size vs m₀ [] h₀ (by simpa using hnd)⟩

/-- C9 at work: node `5` added at the head of the list `2, 3` at head `1`. -/
theorem C9_add_head_order_witness :
    Traversal (dlinkedlist_add_head mem23 1 5 (some 0)) 1 (5 :: [2, 3]) :=
  (C9_add_head_order mem23 1 5 [2, 3] (some 0) (by decide) (by decide)).1

/-! ## Tolerated input-shape violations -/

/-- C10: `split(head, list, node, headSize, listSize)` is a no-op when `list` is not empty
on entry, or `head` is empty, or `node == head`: the call returns (whatever the fuel) and
the memory, that is every pointer of every node and every counter, is left as it was. -/
theorem C10_split_noop (fuel : Nat) (m : Mem) (head list node : Node)
    (headSize listSize : Option Nat)
    (h : dlinkedlist_empty m list = false ∨ dlinkedlist_empty m head = true ∨ node = head) :
    dlinkedlist_split fuel m head list node headSize listSize = some m := by
  unfold dlinkedlist_split
  rcases h with h | h | h
  · simp [h]
  · simp [h]
  · simp [h]

/-- C10 at work: a split of the empty list at `4` into the non-empty list at `1`, with no
fuel at all. -/
theorem C10_split_noop_witness :
    dlinkedlist_split 0 mem23 4 1 2 (some 0) (some 1) = some mem23 :=
  C10_split_noop 0 mem23 4 1 2 (some 0) (some 1) (Or.inl (by decide))

/-- C11: `splice(source, dest, sourceSize, destSize)` with an empty source list is a
no-op: the memory, that is every pointer of every node and every counter, is left as it
was, whatever the counters supplied and whatever they hold. -/
theorem C11_splice_noop (m : Mem) (list head : Node) (listSize headSize : Option Nat)
    (he : dlinkedlist_empty m list = true) :
    dlinkedlist_splice m list head listSize headSize = m := by
  simp [dlinkedlist_splice, he]

/-- C11 at work: the empty list at `4` spliced onto the list `2, 3` at head `1`. -/
theorem C11_splice_noop_witness :
    dlinkedlist_splice mem23 4 1 (some 1) (some 0) = mem23 :=
  C11_splice_noop mem23 4 1 (some 1) (some 0) (by decide)

/-! ## Counters of splice and split -/

theorem splice_cell {m : Mem} {list : Node} (he : dlinkedlist_empty m list = false)
    (head : Node) (a b : Nat) (x : Nat) :
    (dlinkedlist_splice m list head (some b) (some a)).cell x =
      if x = b then 0 else if x = a then m.cell a + m.cell b else m.cell x := by
  simp [dlinkedlist_splice, __dlinkedlist_splice, dlinkedlist_init_head, he]

/-- C12: for every `splice(source, dest, &sourceSize, &destSize)` with a non-empty source
and both counters supplied (two distinct counters, the sum of whose values is in the
range of `int_least32_t`, so that `+=` does not overflow), afterwards `destSize` holds
its old value plus the old `sourceSize`, a value in the range of the type, and
`sourceSize` holds 0; so, for two distinct well-formed lists whose counters equalled
`dlinkedlist_size` of their lists before the call, both counters equal
`dlinkedlist_size` of their lists after it: the destination's is the sum of the two old
sizes and the source's is 0. -/
theorem C12_splice_counters (m : Mem) (list head : Node) (a b : Nat)
    (he : dlinkedlist_empty m list = false) (hab : a ≠ b)
    (hsum : InRange32 (m.cell a + m.cell b)) :
    (dlinkedlist_splice m list head (some b) (some a)).cell a = m.cell a + m.cell b ∧
    InRange32 ((dlinkedlist_splice m list head (some b) (some a)).cell a) ∧
    (dlinkedlist_splice m list head (some b) (some a)).cell b = 0 ∧
    ∀ (B A : List Node) (fuel : Nat), Traversal m list B → Traversal m head A →
      list ∉ head :: A → A.length + B.length < fuel →
      dlinkedlist_size fuel m list = some (m.cell b) →
      dlinkedlist_size fuel m head = some (m.cell a) →
        dlinkedlist_size fuel (dlinkedlist_splice m list head (some b) (some a)) head =
          some ((dlinkedlist_splice m list head (some b) (some a)).cell a) ∧
        dlinkedlist_size fuel (dlinkedlist_splice m list head (some b) (some a)) list =
          some ((dlinkedlist_splice m list head (some b) (some a)).cell b) ∧
        (dlinkedlist_splice m list head (some b) (some a)).cell a =
          (A.length : Int) + (B.length : Int) := by
  have ca : (dlinkedlist_splice m list head (some b) (some a)).cell a =
      m.cell a + m.cell b := by
    simp [splice_cell he, hab]
  have cb : (dlinkedlist_splice m list head (some b) (some a)).cell b = 0 := by
    simp [splice_cell he]
  refine ⟨ca, by rw [ca]; exact hsum, cb, ?_⟩
  intro B A fuel hB hA hd hf sB sA
  rw [size_of_traversal hB (by omega)] at sB
  rw [size_of_traversal hA (by omega)] at sA
  have eB : m.cell b = B.length := (Option.some.inj sB).symm
  have eA : m.cell a = A.length := (Option.some.inj sA).symm
  cases B with
  | nil =>
    have := (empty_iff_traversal_nil m list).2 hB
    rw [he] at this
    exact absurd this (by simp)
  | cons x B =>
    have hd' : ¬ Reach m head list := fun e => hd ((reach_iff_mem hA list).1 e)
    obtain ⟨h1, h2⟩ := traversal_splice hB hA (rings_disjoint hB hA hd') (some b) (some a)
    refine ⟨?_, ?_, ?_⟩
    · rw [size_of_traversal h1 (by simp at hf ⊢; omega), ca, eA, eB]
      simp
      omega
    · rw [size_of_traversal h2 (by simp; omega), cb]
      simp
    · rw [ca, eA, eB]

/-- C12 at work: the list `2, 3` at head `1`, its size in counter `0`, spliced onto the
empty list at `4`, its size in counter `1`. -/
theorem C12_splice_counters_witness :
    (dlinkedlist_splice mem23 1 4 (some 0) (some 1)).cell 1 = mem23.cell 1 + mem23.cell 0 ∧
      InRange32 ((dlinkedlist_splice mem23 1 4 (some 0) (some 1)).cell 1) ∧
      (dlinkedlist_splice mem23 1 4 (some 0) (some 1)).cell 0 = 0 :=
  ⟨(C12_splice_counters mem23 1 4 1 0 (by decide) (by decide) (by decide)).1,
    (C12_splice_counters mem23 1 4 1 0 (by decide) (by decide) (by decide)).2.1,
    (C12_splice_counters mem23 1 4 1 0 (by decide) (by decide) (by decide)).2.2.1⟩

/-- C13: for every split that is not a no-op (a well-formed list `head` with elements
`l₁ ++ e :: l₂`, an empty second list distinct from it, the separator `e`), with enough
fuel for the size loops: the call returns; when both size out-parameters are supplied
(two distinct counters) the head counter then equals `dlinkedlist_size(head)` and the
list counter equals `dlinkedlist_size(list)`, whatever they held before, and the two sum
to the size `head` had before the call; when at least one of the two is absent no
counter is changed. -/
theorem C13_split_counters (m : Mem) (head list e : Node) (l₁ l₂ : List Node)
    (headSize listSize : Option Nat) (fuel : Nat)
    (h : Traversal m head (l₁ ++ e :: l₂)) (hl : dlinkedlist_empty m list = true)
    (hne : list ≠ head) (hf : (l₁ ++ e :: l₂).length < fuel) :
    ∃ m', dlinkedlist_split fuel m head list e headSize listSize = some m' ∧
      (∀ a b, headSize = some a → listSize = some b → a ≠ b →
        dlinkedlist_size fuel m' head = some (m'.cell a) ∧
        dlinkedlist_size fuel m' list = some (m'.cell b) ∧
        dlinkedlist_size fuel m head = some (m'.cell a + m'.cell b)) ∧
      ((headSize = none ∨ listSize = none) → m'.cell = m.cell) := by
  obtain ⟨m', e1, t1, t2⟩ := split_traversal h hl hne headSize listSize fuel hf
  have e2 := split_eq_some h hl hne headSize listSize fuel hf
  rw [e1] at e2
  have e3 := Option.some.inj e2
  have hf1 : l₁.length < fuel := by simp at hf; omega
  have hf2 : (e :: l₂).length < fuel := by simp at hf ⊢; omega
  refine ⟨m', e1, ?_, ?_⟩
  · rintro a b rfl rfl hab
    have ca : m'.cell a = l₁.length := by
      rw [e3]
      simp [hab]
    have cb : m'.cell b = (l₂.length : Int) + 1 := by
      rw [e3]
      simp
    refine ⟨?_, ?_, ?_⟩
    · rw [size_of_traversal t1 hf1, ca]
    · rw [size_of_traversal t2 hf2, cb]
      simp
    · rw [size_of_traversal h hf, ca, cb]
      simp
  · intro hn
    rw [e3]
    rcases hn with rfl | rfl
    · rfl
    · cases headSize <;> rfl

/-- C13 at work: the list `2, 3` at head `1` split at `3` into the empty list at `4`, the
counters `0` and `1` supplied. -/
theorem C13_split_counters_witness :
    ∃ m', dlinkedlist_split 3 mem23 1 4 3 (some 0) (some 1) = some m' ∧
      (∀ a b, some 0 = some a → some 1 = some b → a ≠ b →
        dlinkedlist_size 3 m' 1 = some (m'.cell a) ∧
        dlinkedlist_size 3 m' 4 = some (m'.cell b) ∧
        dlinkedlist_size 3 mem23 1 = some (m'.cell a + m'.cell b)) ∧
      (((some 0 : Option Nat) = none ∨ (some 1 : Option Nat) = none) → m'.cell = mem23.cell) :=
  C13_split_counters mem23 1 4 3 [2] [] (some 0) (some 1) 3 (by decide) (by decide)
    (by decide) (by decide)

/-! ## Emptiness, singularity, initialisation -/

theorem empty_iff_nil {m : Mem} {head : Node} {l : List Node} (h : Traversal m head l) :
    dlinkedlist_empty m head = true ↔ l = [] := by
  rw [empty_iff_traversal_nil]
  exact ⟨fun h' => traversal_unique h h', fun e => e ▸ h⟩

theorem empty_eq_false_of_length {m : Mem} {head : Node} {l : List Node}
    (h : Traversal m head l) {k : Nat} (hk : l.length = k + 1) :
    dlinkedlist_empty m head = false := by
  cases l with
  | nil => simp at hk
  | cons x xs => exact empty_eq_false_of_cons h

/-- C14: for every well-formed list, `dlinkedlist_size(head)` terminates (with fuel above
the number of elements) and returns the number of nodes other than the head met by the
forward traversal, and `dlinkedlist_empty(head)` is true iff that size is 0; in
particular `dlinkedlist_empty` is true right after `init_head` and false after any add
(of a node not in the list, after or before a node of the list). -/
theorem C14_empty_iff_size_zero (m : Mem) (head : Node) (hw : WellFormed m head) :
    ∃ l, Traversal m head l ∧
      (∀ fuel, l.length < fuel →
        dlinkedlist_size fuel m head = some (l.length : Int) ∧
        (dlinkedlist_empty m head = true ↔ dlinkedlist_size fuel m head = some 0)) ∧
      (∀ (m₀ : Mem) (size : Option Nat),
        dlinkedlist_empty (dlinkedlist_init_head m₀ head size) head = true) ∧
      (∀ (node : Node) (size : Option Nat), ¬ Reach m head node →
        dlinkedlist_empty (dlinkedlist_add_head m head node size) head = false ∧
        dlinkedlist_empty (dlinkedlist_add_tail m head node size) head = false) ∧
      (∀ (anchor node : Node) (size : Option Nat), Reach m head anchor →
        ¬ Reach m head node →
        dlinkedlist_empty (dlinkedlist_add_after m anchor node size) head = false ∧
        dlinkedlist_empty (dlinkedlist_add_before m anchor node size) head = false) := by
  obtain ⟨l, h⟩ := traversal_of_wellFormed hw
  refine ⟨l, h, ?_, ?_, ?_, ?_⟩
  · intro fuel hf
    have hs := size_of_traversal h hf
    refine ⟨hs, ?_⟩
    rw [hs, empty_iff_nil h]
    constructor
    · rintro rfl
      rfl
    · intro e
      have : (l.length : Int) = 0 := Option.some.inj e
      exact List.length_eq_zero.1 (by exact_mod_cast this)
  · intro m₀ size
    exact (empty_iff_traversal_nil _ _).2 (traversal_init_head m₀ head size)
  · intro node size hn
    have hn' : node ∉ head :: l := fun e => hn ((reach_iff_mem h node).2 e)
    exact ⟨empty_eq_false_of_cons (traversal_add_head h hn' size),
      @empty_eq_false_of_length _ _ _ (traversal_add_tail h hn' size) l.length (by simp)⟩
  · intro anchor node size ha hn
    have hn' : node ∉ head :: l := fun e => hn ((reach_iff_mem h node).2 e)
    obtain ⟨⟨l1, h1, e1⟩, ⟨l2, h2, e2⟩⟩ :=
      exists_traversal_add h ((reach_iff_mem h anchor).1 ha) hn' size
    exact ⟨empty_eq_false_of_length h1 e1, empty_eq_false_of_length h2 e2⟩

/-- C14 at work: the list `2, 3` at head `1`. -/
theorem C14_empty_iff_size_zero_witness :
    ∃ l, Traversal mem23 1 l ∧
      (∀ fuel, l.length < fuel →
        dlinkedlist_size fuel mem23 1 = some (l.length : Int) ∧
        (dlinkedlist_empty mem23 1 = true ↔ dlinkedlist_size fuel mem23 1 = some 0)) :=
  (C14_empty_iff_size_zero mem23 1
    (wellFormed_of_traversal (show Traversal mem23 1 [2, 3] by decide))).imp
    fun _ h => ⟨h.1, h.2.1⟩

theorem singular_iff_length {m : Mem} {head : Node} {l : List Node}
    (h : Traversal m head l) : dlinkedlist_singular m head = true ↔ l.length = 1 := by
  cases l with
  | nil =>
    have := (empty_iff_traversal_nil m head).2 h
    simp [dlinkedlist_singular, this]
  | cons x xs =>
    have he := empty_eq_false_of_cons h
    have h1 := (traversal_first_links h).1
    cases xs with
    | nil =>
      have h2 := (@traversal_head_links m head [] x (by simpa using h)).1
      simp [dlinkedlist_singular, he, h1, h2]
    | cons y r =>
      obtain ⟨q, z, hq⟩ : ∃ q z, y :: r = q ++ [z] := by
        rcases List.eq_nil_or_concat (y :: r) with e | ⟨q, z, e⟩
        · simp at e
        · exact ⟨q, z, by rw [e, List.concat_eq_append]⟩
      have h2 := (@traversal_head_links m head (x :: q) z (by
        rw [List.cons_append, ← hq]; exact h)).1
      have hz : z ∈ y :: r := by rw [hq]; simp
      have hxz : x ≠ z := fun e => by
        have := h.2
        rw [← e] at hz
        simp at this hz
        tauto
      simp [dlinkedlist_singular, he, h1, h2, hxz]

/-- C15: for every well-formed list, `dlinkedlist_singular(head)` is true iff
`dlinkedlist_size(head)` is 1; it is false on an empty list, true after one node is
added to the empty list (by `add_tail` or `add_head`) and false again after a second
node is added. -/
theorem C15_singular_iff_size_one (m : Mem) (head : Node) (hw : WellFormed m head) :
    ∃ l, Traversal m head l ∧
      (∀ fuel, l.length < fuel →
        (dlinkedlist_singular m head = true ↔ dlinkedlist_size fuel m head = some 1)) ∧
      (l = [] →
        dlinkedlist_singular m head = false ∧
        ∀ (v w : Node) (s₁ s₂ : Option Nat), v ≠ head → w ≠ head → w ≠ v →
          dlinkedlist_singular (dlinkedlist_add_tail m head v s₁) head = true ∧
          dlinkedlist_singular
            (dlinkedlist_add_tail (dlinkedlist_add_tail m head v s₁) head w s₂) head = false ∧
          dlinkedlist_singular (dlinkedlist_add_head m head v s₁) head = true ∧
          dlinkedlist_singular
            (dlinkedlist_add_head (dlinkedlist_add_head m head v s₁) head w s₂) head =
              false) := by
  obtain ⟨l, h⟩ := traversal_of_wellFormed hw
  refine ⟨l, h, ?_, ?_⟩
  · intro fuel hf
    rw [size_of_traversal h hf, singular_iff_length h]
    constructor
    · intro e
      rw [e]
      rfl
    · intro e
      have : (l.length : Int) = 1 := Option.some.inj e
      exact_mod_cast this
  · rintro rfl
    refine ⟨?_, ?_⟩
    · have := singular_iff_length h
      simpa using this
    · intro v w s₁ s₂ hv hw' hwv
      have t1 := traversal_add_tail h (by simpa using hv) s₁
      have t2 := traversal_add_tail t1 (by simp; tauto) s₂
      have u1 := traversal_add_head h (by simpa using hv) s₁
      have u2 := traversal_add_head u1 (by simp; tauto) s₂
      refine ⟨(singular_iff_length t1).2 (by simp), ?_, (singular_iff_length u1).2 (by simp), ?_⟩
      · have := singular_iff_length t2
        simpa using this
      · have := singular_iff_length u2
        simpa using this

/-- C15 at work: the empty list at head `4`. -/
theorem C15_singular_iff_size_one_witness :
    ∃ l, Traversal mem23 4 l ∧
      (∀ fuel, l.length < fuel →
        (dlinkedlist_singular mem23 4 = true ↔ dlinkedlist_size fuel mem23 4 = some 1)) :=
  (C15_singular_iff_size_one mem23 4
    (wellFormed_of_traversal (show Traversal mem23 4 [] by decide))).imp
    fun _ h => ⟨h.1, h.2.1⟩

/-- C17: for every head node, whatever its `next` and `prev` fields and the counter held
before, `init_head(head, size)` sets `head->next == head` and `head->prev == head`, so
that `dlinkedlist_empty(head)` is true and `dlinkedlist_size(head)` is 0, and it sets the
counter to 0 if one is supplied; `init_head` is idempotent. -/
theorem C17_init_head (m : Mem) (head : Node) (size : Option Nat) :
    (dlinkedlist_init_head m head size).next head = head ∧
    (dlinkedlist_init_head m head size).prev head = head ∧
    dlinkedlist_empty (dlinkedlist_init_head m head size) head = true ∧
    (∀ fuel, dlinkedlist_size (fuel + 1) (dlinkedlist_init_head m head size) head = some 0) ∧
    (∀ c, size = some c → (dlinkedlist_init_head m head size).cell c = 0) ∧
    dlinkedlist_init_head (dlinkedlist_init_head m head size) head size =
      dlinkedlist_init_head m head size := by
  have t := traversal_init_head m head size
  obtain ⟨h1, h2⟩ := (traversal_nil_iff _ _).1 t
  refine ⟨h1, h2, (empty_iff_traversal_nil _ _).2 t, ?_, ?_, ?_⟩
  · intro fuel
    have := size_of_traversal t (Nat.succ_pos fuel)
    simpa using this
  · rintro c rfl
    simp [dlinkedlist_init_head]
  · cases size with
    | none =>
      simp only [dlinkedlist_init_head, Mem.setNext, Mem.setPrev, Mem.mk.injEq]
      refine ⟨?_, ?_, trivial⟩ <;> (funext x; split_ifs <;> rfl)
    | some c =>
      simp only [dlinkedlist_init_head, Mem.setNext, Mem.setPrev, Mem.setCell, Mem.mk.injEq]
      refine ⟨?_, ?_, ?_⟩ <;> (funext x; split_ifs <;> rfl)

/-! ## `dlinkedlist_free` -/

@[simp] theorem Mem.mirror_next (m : Mem) : m.mirror.next = m.prev := rfl

@[simp] theorem Mem.mirror_prev (m : Mem) : m.mirror.prev = m.next := rfl

/-- A path read backwards is a path of the mirrored memory. -/
theorem path_mirror (m : Mem) (p : List Node) : Path m.mirror p.reverse ↔ Path m p := by
  rw [path_iff_chain, path_iff_chain, List.chain'_reverse]
  apply List.Chain'.iff
  intro a b
  simp only [flip, Link, Mem.mirror_next, Mem.mirror_prev]
  tauto

theorem calls_append (l₁ l₂ : List Access) : calls (l₁ ++ l₂) = calls l₁ ++ calls l₂ := by
  induction l₁ with
  | nil => rfl
  | cons x r ih => cases x <;> simp [calls, ih]

theorem calls_freeEvents (head : Node) : ∀ bl : List Node, calls (freeEvents head bl) = bl
  | [] => rfl
  | z :: bl => by simp [freeEvents, calls, calls_freeEvents head bl]

/-- The loop of `dlinkedlist_free`, entered at the first node of the backward chain `bl`
that ends at the head, releases the nodes of `bl` in that order and stops. -/
theorem freeLoop_spec {fn : Node → Mem → Mem} {head : Node}
    (hfn : ∀ n s x, x ≠ n → (fn n s).next x = s.next x ∧ (fn n s).prev x = s.prev x) :
    ∀ (bl : List Node) (s : Mem) (log : List Access) (fuel : Nat),
      Path s.mirror (bl ++ [head]) → (bl ++ [head]).Nodup → bl.length < fuel →
      ∃ s', freeLoop fn head fuel s (bl.headD head) log =
        some (s', log ++ freeEvents head bl)
  | [], s, log, fuel, _, _, hf => by
    obtain ⟨fuel, rfl⟩ : ∃ f, fuel = f + 1 := ⟨fuel - 1, by simp at hf; omega⟩
    exact ⟨s, by simp [freeLoop, freeEvents]⟩
  | z :: bl, s, log, fuel, hp, hnd, hf => by
    obtain ⟨fuel, rfl⟩ : ∃ f, fuel = f + 1 := ⟨fuel - 1, by simp at hf; omega⟩
    obtain ⟨R, hR⟩ : ∃ R, bl ++ [head] = bl.headD head :: R := by
      cases bl with
      | nil => exact ⟨[], rfl⟩
      | cons y r => exact ⟨r ++ [head], rfl⟩
    have hp' : Path s.mirror (z :: bl.headD head :: R) := by
      rw [← hR]; exact hp
    obtain ⟨⟨h1, h2⟩, -⟩ := hp'
    simp only [Mem.mirror_next, Mem.mirror_prev] at h1 h2
    have hp2 : Path s.mirror (bl ++ [head]) := by
      rw [List.cons_append, hR] at hp
      rw [hR]
      exact hp.2
    have hnd2 : (bl ++ [head]).Nodup := (List.nodup_cons.1 hnd).2
    have hz : z ∉ bl ++ [head] := (List.nodup_cons.1 hnd).1
    have hzh : z ≠ head := fun e => hz (by simp [e])
    have hyR : bl.headD head ∉ R := by
      rw [hR] at hnd2
      exact (List.nodup_cons.1 hnd2).1
    have hp3 : Path ((fn z s).setNext (bl.headD head) NULL).mirror (bl ++ [head]) := by
      refine path_frame _ ?_ ?_ hp2
      · intro x hx
        rw [List.dropLast_concat] at hx
        have : x ≠ z := fun e => hz (by simp [← e, hx])
        simpa using (hfn z s x this).2
      · intro x hx
        rw [hR, List.tail_cons] at hx
        have e1 : x ≠ bl.headD head := fun e => hyR (e ▸ hx)
        have e2 : x ≠ z := fun e => hz (by rw [hR, ← e]; exact List.mem_cons_of_mem _ hx)
        simp only [Mem.mirror_prev, Mem.setNext_next, if_neg e1]
        exact (hfn z s x e2).1
    obtain ⟨s', hs'⟩ := freeLoop_spec hfn bl _
      (log ++ [.read_prev z, .read_next (bl.headD head), .call z,
        .write_next (bl.headD head)]) fuel hp3 hnd2 (by simp at hf; omega)
    refine ⟨s', ?_⟩
    simp only [List.headD_cons, freeLoop, hzh, ne_eq, not_false_eq_true, if_true, h1, h2]
    rw [hs']
    simp [freeEvents]

/-- The whole log of `dlinkedlist_free` on a well-formed list, for a callback that touches
no node but the one it is given. -/
theorem free_log {fn : Node → Mem → Mem} {m : Mem} {head : Node} {l : List Node}
    (hfn : ∀ n s x, x ≠ n → (fn n s).next x = s.next x ∧ (fn n s).prev x = s.prev x)
    (h : Traversal m head l) (size : Option Nat) (fuel : Nat) (hf : l.length < fuel) :
    ∃ m', dlinkedlist_free fuel fn m head size =
        some (m', [.read_prev head] ++ freeEvents head l.reverse ++ [.call head]) ∧
      ∀ c, size = some c → m'.cell c = 0 := by
  have hp : Path m.mirror (head :: (l.reverse ++ [head])) := by
    have := (path_mirror m (head :: (l ++ [head]))).2 h.1
    simpa using this
  have hnd : (l.reverse ++ [head]).Nodup := by
    have := h.2
    simp [List.nodup_append] at this ⊢
    tauto
  obtain ⟨R, hR⟩ : ∃ R, l.reverse ++ [head] = l.reverse.headD head :: R := by
    cases l.reverse with
    | nil => exact ⟨[], rfl⟩
    | cons y r => exact ⟨r ++ [head], rfl⟩
  have h1 : m.prev head = l.reverse.headD head := by
    rw [hR] at hp
    exact hp.1.1
  have hp2 : Path m.mirror (l.reverse ++ [head]) := by
    rw [hR] at hp ⊢
    exact hp.2
  obtain ⟨s', hs'⟩ := freeLoop_spec hfn l.reverse m [.read_prev head] fuel hp2 hnd
    (by simpa using hf)
  cases size with
  | none =>
    exact ⟨fn head s', by simp only [dlinkedlist_free, h1, hs'], by simp⟩
  | some c =>
    exact ⟨(fn head s').setCell c 0, by simp only [dlinkedlist_free, h1, hs'], by
      rintro c' e
      obtain rfl := Option.some.inj e
      simp⟩

/-- C16: for every well-formed list with elements `l` (`k = l.length`, possibly 0) and a
release callback that touches no node but the one it is given, `free(head, size, fn)`
terminates (with fuel above `k`) and invokes `fn` exactly `k + 1` times, exactly once
per node of the list, in the order last element, ..., first element, head; the size
counter, if supplied, holds 0 afterwards. -/
theorem C16_free_calls (fn : Node → Mem → Mem) (m : Mem) (head : Node) (l : List Node)
    (size : Option Nat) (fuel : Nat)
    (hfn : ∀ n s x, x ≠ n → (fn n s).next x = s.next x ∧ (fn n s).prev x = s.prev x)
    (h : Traversal m head l) (hf : l.length < fuel) :
    ∃ m' log, dlinkedlist_free fuel fn m head size = some (m', log) ∧
      calls log = l.reverse ++ [head] ∧
      (calls log).length = l.length + 1 ∧
      List.Perm (calls log) (head :: l) ∧ (calls log).Nodup ∧
      ∀ c, size = some c → m'.cell c = 0 := by
  obtain ⟨m', e, hc⟩ := free_log hfn h size fuel hf
  have hcalls : calls ([Access.read_prev head] ++ freeEvents head l.reverse ++
      [Access.call head]) = l.reverse ++ [head] := by
    simp [calls_append, calls_freeEvents, calls]
  have hperm : List.Perm (l.reverse ++ [head]) (head :: l) :=
    (List.perm_append_comm).trans (List.Perm.cons head (List.reverse_perm l))
  refine ⟨m', _, e, hcalls, ?_, ?_, ?_, hc⟩
  · rw [hcalls]; simp
  · rw [hcalls]; exact hperm
  · rw [hcalls]; exact (List.Perm.nodup_iff hperm).2 h.2

/-- C16 at work: the list `2, 3` at head `1` freed with a callback that leaves the memory
as it is: the callback is invoked on `3`, `2`, `1`. -/
theorem C16_free_calls_witness :
    ∃ m' log, dlinkedlist_free 3 (fun _ s => s) mem23 1 (some 0) = some (m', log) ∧
      calls log = [2, 3].reverse ++ [1] ∧
      (calls log).length = [2, 3].length + 1 ∧
      List.Perm (calls log) (1 :: [2, 3]) ∧ (calls log).Nodup ∧
      ∀ c, some 0 = some c → m'.cell c = 0 :=
  C16_free_calls (fun _ s => s) mem23 1 [2, 3] (some 0) 3 (fun _ _ _ _ => ⟨rfl, rfl⟩)
    (by decide) (by decide)

/-! ## The iterator contract -/

theorem and_xor_of_and_eq_zero (x w b : Nat) (h : w &&& b = 0) :
    (x ^^^ w) &&& b = x &&& b := by
  apply Nat.eq_of_testBit_eq
  intro i
  have hi := congrArg (fun n => Nat.testBit n i) h
  simp only [Nat.testBit_and, Nat.zero_testBit] at hi
  simp only [Nat.testBit_and, Nat.testBit_xor]
  cases hx : x.testBit i <;> cases hw : w.testBit i <;> cases hb : b.testBit i <;> simp_all

/-- C18: capability gating.  `iterator_item_next` returns `NULL` and leaves the state as
it is, whatever the `next` binding (which is therefore not invoked), when the iterator
pointer is null or the FORWARD bit of its mode is unset; otherwise it returns exactly the
result of the `next` binding.  Symmetrically `iterator_item_prev` with the BACKWARD bit
and the `prev` binding.  Toggling the WRITABLE and MUTABLE bits of the mode changes the
result of neither. -/
theorem C18_capability_gating {σ : Type} :
    (∀ s : σ, iterator_item_next (none : Option (iterator σ)) s = (NULL, s)) ∧
    (∀ (it : iterator σ) (s : σ), it._mode &&& ITERATOR_ACCESS_MODE_FORWARD = 0 →
      iterator_item_next (some it) s = (NULL, s)) ∧
    (∀ (it : iterator σ) (s : σ), it._mode &&& ITERATOR_ACCESS_MODE_FORWARD ≠ 0 →
      iterator_item_next (some it) s = it.next s) ∧
    (∀ s : σ, iterator_item_prev (none : Option (iterator σ)) s = (NULL, s)) ∧
    (∀ (it : iterator σ) (s : σ), it._mode &&& ITERATOR_ACCESS_MODE_BACKWARD = 0 →
      iterator_item_prev (some it) s = (NULL, s)) ∧
    (∀ (it : iterator σ) (s : σ), it._mode &&& ITERATOR_ACCESS_MODE_BACKWARD ≠ 0 →
      iterator_item_prev (some it) s = it.prev s) ∧
    (∀ (it : iterator σ) (s : σ) (w : Nat),
      w = ITERATOR_ACCESS_MODE_WRITABLE ∨ w = ITERATOR_ACCESS_MODE_MUTABLE ∨
        w = ITERATOR_ACCESS_MODE_WRITABLE ||| ITERATOR_ACCESS_MODE_MUTABLE →
      iterator_item_next (some (it.withMode (it._mode ^^^ w))) s =
        iterator_item_next (some it) s ∧
      iterator_item_prev (some (it.withMode (it._mode ^^^ w))) s =
        iterator_item_prev (some it) s) := by
  refine ⟨fun s => rfl, ?_, ?_, fun s => rfl, ?_, ?_, ?_⟩
  · intro it s h
    simp [iterator_item_next, h]
  · intro it s h
    simp [iterator_item_next, h]
  · intro it s h
    simp [iterator_item_prev, h]
  · intro it s h
    simp [iterator_item_prev, h]
  · intro it s w hw
    have h1 : w &&& ITERATOR_ACCESS_MODE_FORWARD = 0 := by
      rcases hw with rfl | rfl | rfl <;> decide
    have h2 : w &&& ITERATOR_ACCESS_MODE_BACKWARD = 0 := by
      rcases hw with rfl | rfl | rfl <;> decide
    simp [iterator_item_next, iterator_item_prev, iterator.withMode,
      and_xor_of_and_eq_zero _ _ _ h1, and_xor_of_and_eq_zero _ _ _ h2]

/-- C18 at work: on the counting iterator at position 5, with only the BACKWARD and
WRITABLE bits set, `iterator_item_next` returns `NULL` and the position is still 5, and
`iterator_item_prev` returns what the `prev` binding returns. -/
theorem C18_capability_gating_witness :
    iterator_item_next (some (countingIterator 6)) 5 = (NULL, 5) ∧
      iterator_item_prev (some (countingIterator 6)) 5 = (15, 15) :=
  ⟨C18_capability_gating.2.1 (countingIterator 6) 5 (by decide),
    C18_capability_gating.2.2.2.2.2.1 (countingIterator 6) 5 (by decide)⟩

/-- C19, as stated, fails: on the cursor iterator at position 5 with no mode bit set,
`iterator_item_next` and `iterator_item_prev` return `NULL`, whereas
`iterator_item_current` returns 5. -/
theorem C19_unset_returns_current_counterexample :
    (cursorIterator 0)._mode &&& ITERATOR_ACCESS_MODE_FORWARD = 0 ∧
    (cursorIterator 0)._mode &&& ITERATOR_ACCESS_MODE_BACKWARD = 0 ∧
    (iterator_item_current (some (cursorIterator 0)) 5).1 = 5 ∧
    (iterator_item_next (some (cursorIterator 0)) 5).1 ≠
      (iterator_item_current (some (cursorIterator 0)) 5).1 ∧
    (iterator_item_prev (some (cursorIterator 0)) 5).1 ≠
      (iterator_item_current (some (cursorIterator 0)) 5).1 := by
  decide

/-- C19, amended: for every non-null iterator whose FORWARD (respectively BACKWARD) mode
bit is unset, advance-forward (respectively advance-backward) is a no-op that returns
`NULL`, "no item", and leaves the iterator unmoved; what it returns is the value
returned by `current(iterator)` only when that value is `NULL` too. -/
theorem C19_unset_returns_null {σ : Type} (it : iterator σ) (s : σ) :
    (it._mode &&& ITERATOR_ACCESS_MODE_FORWARD = 0 →
      iterator_item_next (some it) s = (NULL, s) ∧
      ((iterator_item_next (some it) s).1 = (iterator_item_current (some it) s).1 ↔
        (it.current s).1 = NULL)) ∧
    (it._mode &&& ITERATOR_ACCESS_MODE_BACKWARD = 0 →
      iterator_item_prev (some it) s = (NULL, s) ∧
      ((iterator_item_prev (some it) s).1 = (iterator_item_current (some it) s).1 ↔
        (it.current s).1 = NULL)) := by
  constructor
  · intro h
    have e : iterator_item_next (some it) s = (NULL, s) := by simp [iterator_item_next, h]
    refine ⟨e, ?_⟩
    rw [e]
    simp only [iterator_item_current]
    exact eq_comm
  · intro h
    have e : iterator_item_prev (some it) s = (NULL, s) := by simp [iterator_item_prev, h]
    refine ⟨e, ?_⟩
    rw [e]
    simp only [iterator_item_current]
    exact eq_comm

/-- C19, amended, at work: the cursor iterator at position 5 with no mode bit set. -/
theorem C19_unset_returns_null_witness :
    iterator_item_next (some (cursorIterator 0)) 5 = (NULL, 5) ∧
      iterator_item_prev (some (cursorIterator 0)) 5 = (NULL, 5) :=
  ⟨((C19_unset_returns_null (cursorIterator 0) 5).1 (by decide)).1,
    ((C19_unset_returns_null (cursorIterator 0) 5).2 (by decide)).1⟩

/-- C20: for every non-null iterator, `iterator_item_begin` returns the cached `_first`
when it is not `NULL` and otherwise exactly the result of the `begin` binding;
`iterator_item_end` returns the cached `_last` when it is not `NULL` and otherwise
exactly the result of the `end` binding; both return `NULL` for a null iterator, and
neither depends on the mode. -/
theorem C20_begin_end {σ : Type} :
    (∀ (it : iterator σ) (s : σ), it._first ≠ NULL →
      iterator_item_begin (some it) s = (it._first, s)) ∧
    (∀ (it : iterator σ) (s : σ), it._first = NULL →
      iterator_item_begin (some it) s = it.begin s) ∧
    (∀ (it : iterator σ) (s : σ), it._last ≠ NULL →
      iterator_item_end (some it) s = (it._last, s)) ∧
    (∀ (it : iterator σ) (s : σ), it._last = NULL →
      iterator_item_end (some it) s = it.end_ s) ∧
    (∀ s : σ, iterator_item_begin (none : Option (iterator σ)) s = (NULL, s) ∧
      iterator_item_end (none : Option (iterator σ)) s = (NULL, s)) ∧
    (∀ (it : iterator σ) (mode : Nat) (s : σ),
      iterator_item_begin (some (it.withMode mode)) s = iterator_item_begin (some it) s ∧
      iterator_item_end (some (it.withMode mode)) s = iterator_item_end (some it) s) := by
  refine ⟨?_, ?_, ?_, ?_, fun s => ⟨rfl, rfl⟩, fun it mode s => ⟨rfl, rfl⟩⟩
  · intro it s h
    simp [iterator_item_begin, h]
  · intro it s h
    simp [iterator_item_begin, h]
  · intro it s h
    simp [iterator_item_end, h]
  · intro it s h
    simp [iterator_item_end, h]

/-- C20 at work: the cursor iterator caches nothing, so `iterator_item_begin` and
`iterator_item_end` return what its resolvers return. -/
theorem C20_begin_end_witness :
    iterator_item_begin (some (cursorIterator 0)) 5 = (1, 5) ∧
      iterator_item_end (some (cursorIterator 0)) 5 = (100, 5) :=
  ⟨C20_begin_end.2.1 (cursorIterator 0) 5 (by decide),
    C20_begin_end.2.2.2.1 (cursorIterator 0) 5 (by decide)⟩

/-! ## Container recovery, the anchored adds, the branches of remove -/

/-- C24: container recovery round trip.  For every record address `a` and every byte
offset `o` of the node member in the record type, `dlinkedlist_entry` applied to the node
address `a + o` returns `a` (record address = node address - offset); and when a node `q`
(other than the head) is linked by `add_tail` right after the node `p` embedded at offset
`o` in the record at `a` (`p` being `head->prev`), `dlinkedlist_prev_entry(q)` returns
`a`, the record that embeds `p`. -/
theorem C24_container_round_trip (a o : Nat) :
    dlinkedlist_entry (a + o) o = a ∧
    ∀ (m : Mem) (head q : Node) (size : Option Nat), q ≠ head → m.prev head = a + o →
      (dlinkedlist_add_tail m head q size).next (a + o) = q ∧
      dlinkedlist_prev_entry (dlinkedlist_add_tail m head q size) q o = a := by
  refine ⟨by simp [dlinkedlist_entry, __dlinkedlist_container_of], ?_⟩
  intro m head q size hq hp
  constructor
  · simp [dlinkedlist_add_tail, add_next, hp]
  · simp [dlinkedlist_prev_entry, __dlinkedlist_container_of, dlinkedlist_add_tail, add_prev,
      hq, hp]

/-- C24 at work: the record at address 16 embeds the list head at offset 8 (node 24); the
node 40 is added at its tail, right after the head itself. -/
theorem C24_container_round_trip_witness :
    dlinkedlist_prev_entry
      (dlinkedlist_add_tail (dlinkedlist_init_head Mem.blank 24 none) 24 40 none) 40 8 = 16 :=
  ((C24_container_round_trip 16 8).2 (dlinkedlist_init_head Mem.blank 24 none) 24 40 none
    (by decide) (by decide)).2

/-- C25: `add_after(head, node, size)` gives exactly the memory (pointers and counter)
that `add_head(head, node, size)` gives, and `add_before(head, node, size)` exactly the
one `add_tail(head, node, size)` gives, for every memory, node and counter; for a general
anchor, `add_after` links the node between the anchor and `anchor->next`, and
`add_before` between `anchor->prev` and the anchor (the node being none of the two). -/
theorem C25_anchored_adds (m : Mem) (node : Node) (size : Option Nat) :
    (∀ head, dlinkedlist_add_after m head node size = dlinkedlist_add_head m head node size) ∧
    (∀ head, dlinkedlist_add_before m head node size = dlinkedlist_add_tail m head node size) ∧
    (∀ anchor, node ≠ anchor → node ≠ m.next anchor →
      (dlinkedlist_add_after m anchor node size).next anchor = node ∧
      (dlinkedlist_add_after m anchor node size).prev node = anchor ∧
      (dlinkedlist_add_after m anchor node size).next node = m.next anchor ∧
      (dlinkedlist_add_after m anchor node size).prev (m.next anchor) = node) ∧
    (∀ anchor, node ≠ anchor → node ≠ m.prev anchor →
      (dlinkedlist_add_before m anchor node size).next (m.prev anchor) = node ∧
      (dlinkedlist_add_before m anchor node size).prev node = m.prev anchor ∧
      (dlinkedlist_add_before m anchor node size).next node = anchor ∧
      (dlinkedlist_add_before m anchor node size).prev anchor = node) := by
  refine ⟨fun _ => rfl, fun _ => rfl, ?_, ?_⟩
  · intro anchor h1 h2
    simp [dlinkedlist_add_after, add_next, add_prev, h1, h2]
  · intro anchor h1 h2
    simp [dlinkedlist_add_before, add_next, add_prev, h1, h2]

/-- C25 at work: node `5` added after node `2` of the list `2, 3` at head `1`. -/
theorem C25_anchored_adds_witness :
    (dlinkedlist_add_after mem23 2 5 none).next 2 = 5 ∧
      (dlinkedlist_add_after mem23 2 5 none).prev 5 = 2 ∧
      (dlinkedlist_add_after mem23 2 5 none).next 5 = mem23.next 2 ∧
      (dlinkedlist_add_after mem23 2 5 none).prev (mem23.next 2) = 5 :=
  (C25_anchored_adds mem23 5 none).2.2.1 2 (by decide) (by decide)

/-- C28: the forced-zero branch of `__dlinkedlist_remove`, called by `remove(n)`, is taken
exactly when `n` is self-linked (`n->next == n` and `n->prev == n`), given
`n->next->prev == n`.  For every well-formed list and every member `n` of it other than
the head, `remove(n, &c)` takes the relink branch, whatever `c` holds, and, `c` holding a
value of `int_least32_t` above the least one (so that the decrement does not overflow),
leaves `c` at its old value minus 1, a value in the range of the type, also when `n` is
the only element; `remove` on the head of an empty list changes no pointer and sets `c`
to 0. -/
theorem C28_remove_branches (m : Mem) (n : Node) (c : Nat) :
    (m.prev (m.next n) = n →
      (dlinkedlist_empty m (m.prev (m.next n)) = true ↔ m.next n = n ∧ m.prev n = n)) ∧
    (dlinkedlist_empty m (m.prev (m.next n)) = true →
      dlinkedlist_remove m n (some c) = m.setCell c 0) ∧
    (dlinkedlist_empty m (m.prev (m.next n)) = false →
      INT_LEAST32_MIN < m.cell c → m.cell c ≤ INT_LEAST32_MAX →
      dlinkedlist_remove m n (some c) =
        ((m.setPrev (m.next n) (m.prev n)).setNext (m.prev n) (m.next n)).setCell c
          (m.cell c - 1) ∧
      InRange32 (m.cell c - 1)) ∧
    (∀ (head : Node) (l : List Node), Traversal m head l → n ∈ l →
      dlinkedlist_empty m (m.prev (m.next n)) = false ∧
      (dlinkedlist_remove m n (some c)).next (m.prev n) = m.next n ∧
      (dlinkedlist_remove m n (some c)).prev (m.next n) = m.prev n ∧
      (INT_LEAST32_MIN < m.cell c → m.cell c ≤ INT_LEAST32_MAX →
        (dlinkedlist_remove m n (some c)).cell c = m.cell c - 1 ∧
        InRange32 ((dlinkedlist_remove m n (some c)).cell c))) ∧
    (Traversal m n [] →
      (dlinkedlist_remove m n (some c)).next = m.next ∧
      (dlinkedlist_remove m n (some c)).prev = m.prev ∧
      (dlinkedlist_remove m n (some c)).cell c = 0) := by
  refine ⟨?_, ?_, ?_, ?_, ?_⟩
  · intro hl
    rw [hl]
    simp [dlinkedlist_empty]
  · intro he
    simp [dlinkedlist_remove, __dlinkedlist_remove, he]
  · intro he hlo hhi
    refine ⟨by simp [dlinkedlist_remove, __dlinkedlist_remove, he], ?_⟩
    simp only [InRange32, INT_LEAST32_MIN, INT_LEAST32_MAX] at hlo hhi ⊢
    omega
  · intro head l h hn
    obtain ⟨k1, k2⟩ := member_links h hn
    refine ⟨by simp [dlinkedlist_empty, k1, k2], by simp [remove_next k1 k2],
      by simp [remove_prev k1 k2], fun hlo hhi => ?_⟩
    have hc : (dlinkedlist_remove m n (some c)).cell c = m.cell c - 1 := by
      simp [remove_cell k1 k2]
    refine ⟨hc, ?_⟩
    rw [hc]
    simp only [InRange32, INT_LEAST32_MIN, INT_LEAST32_MAX] at hlo hhi ⊢
    omega
  · intro h
    obtain ⟨h1, h2⟩ := (traversal_nil_iff m n).1 h
    have he : dlinkedlist_empty m (m.prev (m.next n)) = true := by
      simp [dlinkedlist_empty, h1, h2]
    simp [dlinkedlist_remove, __dlinkedlist_remove, he]

/-- C28 at work: the only element `2` of the list at head `1` is removed with the counter
holding 5, which then holds 4; the head `4` of an empty list is "removed" and the counter
is set to 0. -/
theorem C28_remove_branches_witness :
    (dlinkedlist_remove mem2 2 (some 0)).cell 0 = mem2.cell 0 - 1 ∧
      InRange32 ((dlinkedlist_remove mem2 2 (some 0)).cell 0) ∧
      (dlinkedlist_remove mem23 4 (some 0)).cell 0 = 0 :=
  ⟨(((C28_remove_branches mem2 2 0).2.2.2.1 1 [2] (by decide) (by decide)).2.2.2
      (by decide) (by decide)).1,
    (((C28_remove_branches mem2 2 0).2.2.2.1 1 [2] (by decide) (by decide)).2.2.2
      (by decide) (by decide)).2,
    ((C28_remove_branches mem23 4 0).2.2.2.2 (by decide)).2.2⟩

/-- C30: the inverse of split.  For a well-formed list `head` with forward traversal
`l₁ ++ e :: l₂` and every empty list `list` distinct from it, `split(head, list, e)`
followed by `splice(head, list)`, the first list spliced onto the second, leaves `list`
with exactly the original traversal and `head` empty. -/
theorem C30_split_splice_inverse (m : Mem) (head list e : Node) (l₁ l₂ : List Node)
    (headSize listSize headSize' listSize' : Option Nat) (fuel : Nat)
    (h : Traversal m head (l₁ ++ e :: l₂)) (hl : dlinkedlist_empty m list = true)
    (hne : list ≠ head) (hf : (l₁ ++ e :: l₂).length < fuel) :
    ∃ m', dlinkedlist_split fuel m head list e headSize listSize = some m' ∧
      Traversal (dlinkedlist_splice m' head list headSize' listSize') list (l₁ ++ e :: l₂) ∧
      Traversal (dlinkedlist_splice m' head list headSize' listSize') head [] ∧
      dlinkedlist_empty (dlinkedlist_splice m' head list headSize' listSize') head = true := by
  obtain ⟨m', e1, t1, t2⟩ := split_traversal h hl hne headSize listSize fuel hf
  refine ⟨m', e1, ?_⟩
  cases l₁ with
  | nil =>
    have he := (empty_iff_traversal_nil m' head).2 t1
    have es : dlinkedlist_splice m' head list headSize' listSize' = m' := by
      simp [dlinkedlist_splice, he]
    rw [es]
    exact ⟨by simpa using t2, t1, he⟩
  | cons x xs =>
    have hd : ¬ Reach m' list head := fun r => by
      have hm := (reach_iff_mem t2 head).1 r
      have hnd := h.2
      simp [List.nodup_append] at hm hnd
      rcases hm with hm | hm | hm
      · exact hne hm.symm
      · exact hnd.1.2.2.1 hm
      · exact hnd.1.2.2.2 hm
    obtain ⟨s1, s2⟩ := traversal_splice t1 t2 (rings_disjoint t1 t2 hd) headSize' listSize'
    exact ⟨s1, s2, (empty_iff_traversal_nil _ _).2 s2⟩

/-- C30 at work: the list `2, 3` at head `1` split at `3` into the empty list at `4`, and
`1` spliced onto `4`. -/
theorem C30_split_splice_inverse_witness :
    ∃ m', dlinkedlist_split 3 mem23 1 4 3 (some 0) (some 1) = some m' ∧
      Traversal (dlinkedlist_splice m' 1 4 (some 0) (some 1)) 4 ([2] ++ 3 :: []) ∧
      Traversal (dlinkedlist_splice m' 1 4 (some 0) (some 1)) 1 [] ∧
      dlinkedlist_empty (dlinkedlist_splice m' 1 4 (some 0) (some 1)) 1 = true :=
  C30_split_splice_inverse mem23 1 4 3 [2] [] (some 0) (some 1) (some 0) (some 1) 3
    (by decide) (by decide) (by decide) (by decide)

/-! ## No use after release in `dlinkedlist_free` -/

theorem headD_mem_concat (bl : List Node) (head : Node) : bl.headD head ∈ bl ++ [head] := by
  cases bl <;> simp

theorem freeEvents_field_mem (head : Node) : ∀ (bl : List Node) (b : Access),
    b ∈ freeEvents head bl → ∀ n, b.field = some n → n ∈ bl ++ [head]
  | [], b, hb, _, _ => by simp [freeEvents] at hb
  | z :: bl, b, hb, n, hn => by
    have hy := headD_mem_concat bl head
    simp only [freeEvents, List.cons_append, List.nil_append, List.mem_cons] at hb
    rcases hb with rfl | rfl | rfl | rfl | hb
    · obtain rfl : z = n := by simpa [Access.field] using hn
      simp
    · obtain rfl : bl.headD head = n := by simpa [Access.field] using hn
      exact List.mem_cons_of_mem _ hy
    · simp [Access.field] at hn
    · obtain rfl : bl.headD head = n := by simpa [Access.field] using hn
      exact List.mem_cons_of_mem _ hy
    · exact List.mem_cons_of_mem _ (freeEvents_field_mem head bl b hb n hn)

theorem call_mem_freeEvents (head : Node) : ∀ (bl : List Node) (z : Node), z ∈ bl →
    Access.call z ∈ freeEvents head bl
  | [], _, hz => by simp at hz
  | x :: bl, z, hz => by
    rcases List.mem_cons.1 hz with rfl | hz
    · simp [freeEvents]
    · have := call_mem_freeEvents head bl z hz
      simp [freeEvents, this]

theorem noUse_freeEvents (head : Node) : ∀ bl : List Node, (bl ++ [head]).Nodup →
    NoUseAfterRelease (freeEvents head bl ++ [.call head])
  | [], _ => by simp [NoUseAfterRelease, freeEvents]
  | z :: bl, hnd => by
    have hz : z ∉ bl ++ [head] := (List.nodup_cons.1 hnd).1
    have ih := noUse_freeEvents head bl (List.nodup_cons.1 hnd).2
    have hy := headD_mem_concat bl head
    have hyz : bl.headD head ≠ z := fun e => hz (e ▸ hy)
    unfold NoUseAfterRelease at ih ⊢
    simp only [freeEvents, List.cons_append, List.nil_append, List.pairwise_cons]
    refine ⟨fun b _ n hn => (by cases hn), fun b _ n hn => (by cases hn), ?_,
      fun b _ n hn => (by cases hn), ih⟩
    intro b hb n hn
    obtain rfl : z = n := by injection hn
    rcases List.mem_cons.1 hb with rfl | hb
    · simpa [Access.field] using hyz
    · rcases List.mem_append.1 hb with hb | hb
      · intro hf
        exact hz (freeEvents_field_mem head bl b hb z hf)
      · obtain rfl : b = .call head := by simpa using hb
        simp [Access.field]

theorem read_before_call (head : Node) : ∀ (bl : List Node) (z : Node), z ∈ bl →
    List.Sublist [Access.read_prev z, Access.call z] (freeEvents head bl)
  | [], _, hz => by simp at hz
  | x :: bl, z, hz => by
    rcases List.mem_cons.1 hz with rfl | hz
    · simp only [freeEvents, List.cons_append, List.nil_append]
      refine List.Sublist.cons₂ _ (List.Sublist.cons _ ?_)
      exact List.singleton_sublist.2 (by simp)
    · have := read_before_call head bl z hz
      simp only [freeEvents]
      exact List.Sublist.trans this (List.sublist_append_right _ _)

theorem write_before_call (head : Node) : ∀ (bl : List Node) (y : Node),
    Access.write_next y ∈ freeEvents head bl →
    List.Sublist [Access.write_next y, Access.call y] (freeEvents head bl ++ [.call head])
  | [], _, hy => by simp [freeEvents] at hy
  | z :: bl, y, hy => by
    simp only [freeEvents, List.cons_append, List.nil_append, List.mem_cons] at hy
    simp only [freeEvents, List.cons_append, List.nil_append]
    rcases hy with hy | hy | hy | hy | hy
    · cases hy
    · cases hy
    · cases hy
    · obtain rfl : y = bl.headD head := by injection hy
      refine List.Sublist.cons _ (List.Sublist.cons _ (List.Sublist.cons _
        (List.Sublist.cons₂ _ (List.singleton_sublist.2 ?_))))
      cases bl with
      | nil => simp [freeEvents]
      | cons x r =>
        exact List.mem_append_left _ (call_mem_freeEvents head (x :: r) x (by simp))
    · exact List.Sublist.cons _ (List.Sublist.cons _ (List.Sublist.cons _
        (List.Sublist.cons _ (write_before_call head bl y hy))))

/-- C26: during `free(head, size, fn)` on a well-formed list, with a release callback
that touches no node but the one it is given, no field of a node is read or written
after the callback has been invoked on that node: in the log of the run no access to a
field of `n` comes after the invocation on `n`, the `prev` pointer of every node is read
before the invocation on it, and every write (`n->next = NULL`) targets a node on which
the callback is invoked only later. -/
theorem C26_free_no_use_after_release (fn : Node → Mem → Mem) (m : Mem) (head : Node)
    (l : List Node) (size : Option Nat) (fuel : Nat)
    (hfn : ∀ n s x, x ≠ n → (fn n s).next x = s.next x ∧ (fn n s).prev x = s.prev x)
    (h : Traversal m head l) (hf : l.length < fuel) :
    ∃ m' log, dlinkedlist_free fuel fn m head size = some (m', log) ∧
      NoUseAfterRelease log ∧
      (∀ n ∈ head :: l, List.Sublist [Access.read_prev n, Access.call n] log) ∧
      (∀ y, Access.write_next y ∈ log →
        List.Sublist [Access.write_next y, Access.call y] log) := by
  obtain ⟨m', e, -⟩ := free_log hfn h size fuel hf
  have hnd : (l.reverse ++ [head]).Nodup := by
    have := h.2
    simp [List.nodup_append] at this ⊢
    tauto
  refine ⟨m', _, e, ?_, ?_, ?_⟩
  · have := noUse_freeEvents head l.reverse hnd
    unfold NoUseAfterRelease at this ⊢
    simp only [List.singleton_append, List.cons_append, List.pairwise_cons]
    exact ⟨fun b _ n hn => (by cases hn), this⟩
  · intro n hn
    rcases List.mem_cons.1 hn with rfl | hn
    · simp only [List.singleton_append, List.cons_append]
      exact List.Sublist.cons₂ _ (List.singleton_sublist.2 (by simp))
    · have := read_before_call head l.reverse n (by simpa using hn)
      simp only [List.singleton_append, List.cons_append]
      exact List.Sublist.cons _ (List.Sublist.trans this (List.sublist_append_left _ _))
  · intro y hy
    have hy' : Access.write_next y ∈ freeEvents head l.reverse := by
      simpa using hy
    have := write_before_call head l.reverse y hy'
    simp only [List.singleton_append, List.cons_append]
    exact List.Sublist.cons _ this

/-- C26 at work: the list `2, 3` at head `1` freed with a callback that leaves the memory
as it is. -/
theorem C26_free_no_use_after_release_witness :
    ∃ m' log, dlinkedlist_free 3 (fun _ s => s) mem23 1 none = some (m', log) ∧
      NoUseAfterRelease log ∧
      (∀ n ∈ 1 :: [2, 3], List.Sublist [Access.read_prev n, Access.call n] log) ∧
      (∀ y, Access.write_next y ∈ log →
        List.Sublist [Access.write_next y, Access.call y] log) :=
  C26_free_no_use_after_release (fun _ s => s) mem23 1 [2, 3] none 3
    (fun _ _ _ _ => ⟨rfl, rfl⟩) (by decide) (by decide)

/-! ## The list iterator -/

/-- A path is kept by a memory that agrees on the fields of its nodes. -/
theorem path_of_agree {m m' : Mem} (p : List Node)
    (hag : ∀ x ∈ p, m'.next x = m.next x ∧ m'.prev x = m.prev x) (h : Path m p) :
    Path m' p :=
  path_frame p (fun x hx => (hag x (List.mem_of_mem_dropLast hx)).1)
    (fun x hx => (hag x (List.mem_of_mem_tail hx)).2) h

theorem get_next (m : Mem) (head : Node) (hs : Option Nat) (sentinel : Node)
    (first last : Nat) (x : Node) :
    (dlinkedlist_iterator_get m head hs sentinel first last).2.1.next x =
      if x = sentinel then head else m.next x := by
  by_cases hx : x = sentinel <;> simp [dlinkedlist_iterator_get, dlinkedlist_init_head, hx]

theorem get_prev (m : Mem) (head : Node) (hs : Option Nat) (sentinel : Node)
    (first last : Nat) (x : Node) (hx : x ≠ sentinel) :
    (dlinkedlist_iterator_get m head hs sentinel first last).2.1.prev x = m.prev x := by
  simp [dlinkedlist_iterator_get, dlinkedlist_init_head, hx]

theorem get_record (m : Mem) (head : Node) (hs : Option Nat) (sentinel : Node)
    (first last : Nat) :
    (dlinkedlist_iterator_get m head hs sentinel first last).2.2 = ⟨head, head, sentinel⟩ :=
  rfl

/-- The list is not disturbed by `dlinkedlist_iterator_get` when the allocated sentinel is
not one of its nodes. -/
theorem traversal_get {m : Mem} {head : Node} {l : List Node} (h : Traversal m head l)
    (hs : Option Nat) {sentinel : Node} (hsent : sentinel ∉ head :: l) (first last : Nat) :
    Traversal (dlinkedlist_iterator_get m head hs sentinel first last).2.1 head l := by
  refine ⟨path_of_agree _ ?_ h.1, h.2⟩
  intro x hx
  have hx' : x ∈ head :: l := by
    simp at hx ⊢
    tauto
  have hne : x ≠ sentinel := fun e => hsent (e ▸ hx')
  exact ⟨by simp [get_next, hne], get_prev m head hs sentinel first last x hne⟩

theorem get_item_next (m : Mem) (head : Node) (hs : Option Nat) (sentinel : Node)
    (first last : Nat) (mm : Mem) (it : iterator_dlinkedlist) :
    iterator_item_next (some (dlinkedlist_iterator_get m head hs sentinel first last).1)
        (mm, it) =
      if it._current ≠ it._tail then
        (mm.next it._current, (mm, ⟨mm.next it._current, it._head, it._tail⟩))
      else (it._current, (mm, it)) := by
  have hmode : (ITERATOR_ACCESS_MODE_FORWARD ||| ITERATOR_ACCESS_MODE_BACKWARD) &&&
      ITERATOR_ACCESS_MODE_FORWARD ≠ 0 := by decide
  simp only [iterator_item_next, dlinkedlist_iterator_get, hmode, ne_eq, not_false_eq_true,
    if_true, listBinding, __dlinkedlist_iterator_next]
  split_ifs <;> rfl

theorem get_item_prev (m : Mem) (head : Node) (hs : Option Nat) (sentinel : Node)
    (first last : Nat) (mm : Mem) (it : iterator_dlinkedlist) :
    iterator_item_prev (some (dlinkedlist_iterator_get m head hs sentinel first last).1)
        (mm, it) =
      if it._current ≠ it._head then
        (mm.prev it._current, (mm, ⟨mm.prev it._current, it._head, it._tail⟩))
      else (it._current, (mm, it)) := by
  have hmode : (ITERATOR_ACCESS_MODE_FORWARD ||| ITERATOR_ACCESS_MODE_BACKWARD) &&&
      ITERATOR_ACCESS_MODE_BACKWARD ≠ 0 := by decide
  simp only [iterator_item_prev, dlinkedlist_iterator_get, hmode, ne_eq, not_false_eq_true,
    if_true, listBinding, __dlinkedlist_iterator_prev]
  split_ifs <;> rfl

/-- As long as the cursor does not meet the sentinel, `n` advances return the `n` nodes
that follow the cursor and leave the cursor on the last of them. -/
theorem nextItems_get (m : Mem) (head : Node) (hs : Option Nat) (sentinel : Node)
    (first last : Nat) (mm : Mem) (hd tl : Node) : ∀ (n : Nat) (cur : Node),
    (∀ j, j < n → (mm.next)^[j] cur ≠ tl) →
    nextItems (dlinkedlist_iterator_get m head hs sentinel first last).1 n (mm, ⟨cur, hd, tl⟩) =
      ((List.range n).map (fun j => (mm.next)^[j + 1] cur),
        (mm, ⟨(mm.next)^[n] cur, hd, tl⟩))
  | 0, _, _ => rfl
  | n + 1, cur, hne => by
    have h0 : cur ≠ tl := hne 0 (Nat.succ_pos n)
    have ih := nextItems_get m head hs sentinel first last mm hd tl n (mm.next cur)
      (fun j hj => by
        rw [← Function.iterate_succ_apply]
        exact hne (j + 1) (by omega))
    simp only [nextItems, get_item_next, h0, ne_eq, not_false_eq_true, if_true, ih]
    rw [List.range_succ_eq_map]
    simp [Function.comp_def]

/-- Following `next` along a segment enumerates its nodes. -/
theorem seg_map_iterate {m : Mem} : ∀ (l : List Node) (a b : Node),
    Path m (a :: (l ++ [b])) →
    (List.range l.length).map (fun j => (m.next)^[j + 1] a) = l
  | [], _, _, _ => rfl
  | x :: xs, a, b, hp => by
    obtain ⟨⟨h1, -⟩, h3⟩ := hp
    have ih := seg_map_iterate xs x b h3
    rw [List.length_cons, List.range_succ_eq_map]
    simp only [List.map_cons, List.map_map, Function.comp_def, Function.iterate_succ_apply,
      h1]
    simp only [Function.iterate_zero, id_eq, List.cons.injEq, true_and]
    simpa [Function.iterate_succ_apply] using ih

theorem iterate_ne_sentinel {m : Mem} {head : Node} {l : List Node} (h : Traversal m head l)
    {sentinel : Node} (hsent : sentinel ∉ head :: l) (j : Nat) :
    (m.next)^[j] head ≠ sentinel :=
  fun e => hsent (e ▸ (reach_iff_mem h _).1 ⟨j, rfl⟩)

theorem seg_getD {m : Mem} (d : Node) : ∀ (l : List Node) (a b : Node) (j : Nat),
    Path m (a :: (l ++ [b])) → j < l.length → l.getD j d = (m.next)^[j + 1] a
  | [], _, _, _, _, hj => by simp at hj
  | x :: xs, a, b, 0, hp, _ => by
    obtain ⟨⟨h1, -⟩, -⟩ := hp
    simp [h1]
  | x :: xs, a, b, j + 1, hp, hj => by
    obtain ⟨⟨h1, -⟩, h3⟩ := hp
    have ih := seg_getD d xs x b j h3 (by simpa using hj)
    rw [List.getD_cons_succ, ih, Function.iterate_succ_apply (m.next) (j + 1) a, h1]

theorem iterate_mod {f : Node → Node} {x : Node} {p : Nat} (hp : f^[p] x = x) (n : Nat) :
    f^[n] x = f^[n % p] x := by
  conv_lhs => rw [← Nat.mod_add_div n p]
  rw [Function.iterate_add_apply, Function.iterate_mul, Function.iterate_fixed hp]

theorem get_item_current (m : Mem) (head : Node) (hs : Option Nat) (sentinel : Node)
    (first last : Nat) (mm : Mem) (it : iterator_dlinkedlist) :
    iterator_item_current (some (dlinkedlist_iterator_get m head hs sentinel first last).1)
        (mm, it) = (it._current, (mm, it)) := rfl

/-- The run of a fresh iterator over a well-formed list: `n` advances return the `n`
nodes met by following `next` from the head, and leave the cursor on the last of them. -/
theorem nextItems_fresh {m : Mem} {head : Node} {l : List Node} (h : Traversal m head l)
    (hs : Option Nat) {sentinel : Node} (hsent : sentinel ∉ head :: l) (first last : Nat)
    (n : Nat) :
    nextItems (dlinkedlist_iterator_get m head hs sentinel first last).1 n
        (dlinkedlist_iterator_get m head hs sentinel first last).2 =
      ((List.range n).map (fun j =>
          ((dlinkedlist_iterator_get m head hs sentinel first last).2.1.next)^[j + 1] head),
        ((dlinkedlist_iterator_get m head hs sentinel first last).2.1,
          ⟨((dlinkedlist_iterator_get m head hs sentinel first last).2.1.next)^[n] head,
            head, sentinel⟩)) :=
  nextItems_get m head hs sentinel first last _ head sentinel n head
    (fun j _ => iterate_ne_sentinel (traversal_get h hs hsent first last) hsent j)

/-- C22: for a well-formed list with elements `l` (and a sentinel allocated outside of
it), the iterator returned by `dlinkedlist_iterator_get(head)` has mode
`FORWARD | BACKWARD` and its current item is the head itself; for every `i` up to the
number of elements the first `i` successive `iterator_item_next` calls return the first
`i` elements of the list, in order, so that `l.length` advances visit exactly the
elements of the list; and `iterator_item_current` afterwards returns the node last
returned (the head when no call was made). -/
theorem C22_iterator_forward (m : Mem) (head : Node) (hs : Option Nat) (sentinel : Node)
    (first last : Nat) (l : List Node) (h : Traversal m head l)
    (hsent : sentinel ∉ head :: l) :
    (dlinkedlist_iterator_get m head hs sentinel first last).1._mode =
      ITERATOR_ACCESS_MODE_FORWARD ||| ITERATOR_ACCESS_MODE_BACKWARD ∧
    iterator_item_current (some (dlinkedlist_iterator_get m head hs sentinel first last).1)
        (dlinkedlist_iterator_get m head hs sentinel first last).2 =
      (head, (dlinkedlist_iterator_get m head hs sentinel first last).2) ∧
    (∀ i, i ≤ l.length →
      (nextItems (dlinkedlist_iterator_get m head hs sentinel first last).1 i
        (dlinkedlist_iterator_get m head hs sentinel first last).2).1 = l.take i ∧
      (iterator_item_current (some (dlinkedlist_iterator_get m head hs sentinel first last).1)
        (nextItems (dlinkedlist_iterator_get m head hs sentinel first last).1 i
          (dlinkedlist_iterator_get m head hs sentinel first last).2).2).1 =
        ((nextItems (dlinkedlist_iterator_get m head hs sentinel first last).1 i
          (dlinkedlist_iterator_get m head hs sentinel first last).2).1).getLastD head) ∧
    (nextItems (dlinkedlist_iterator_get m head hs sentinel first last).1 l.length
      (dlinkedlist_iterator_get m head hs sentinel first last).2).1 = l := by
  have t := traversal_get h hs hsent first last
  have hmap := seg_map_iterate l head head t.1
  refine ⟨rfl, rfl, ?_, ?_⟩
  · intro i hi
    rw [nextItems_fresh h hs hsent first last i]
    refine ⟨?_, ?_⟩
    · conv_rhs => rw [← hmap]
      rw [← List.map_take, List.take_range, Nat.min_eq_left hi]
    · rw [get_item_current]
      cases i with
      | zero => rfl
      | succ i =>
        rw [List.range_succ, List.map_append, List.map_singleton, List.getLastD_concat]
  · rw [nextItems_fresh h hs hsent first last l.length]
    exact hmap

/-- C22 at work: two advances of the iterator on the list `2, 3` at head `1`. -/
theorem C22_iterator_forward_witness :
    (nextItems iter23.1 [2, 3].length iter23.2).1 = [2, 3] :=
  (C22_iterator_forward mem23 1 none 9 0 0 [2, 3] (by decide) (by decide)).2.2.2

/-- C29: for a well-formed list with elements `l` (and a sentinel allocated outside of
it) and every `n`, after `n` `iterator_item_next` calls on a freshly obtained list
iterator the cursor is never the sentinel tail, the value returned by the end resolver,
and no call returns it: the sentinel is not reachable from the head, the call number
`l.length + 1` returns the head again, and the cursor after `n` calls is the node of
index `n % (l.length + 1)` of `head, e0, ..., ek-1`.  A loop that advances until the
returned item equals `end(iterator)` therefore never stops. -/
theorem C29_iterator_never_reaches_end (m : Mem) (head : Node) (hs : Option Nat)
    (sentinel : Node) (first last : Nat) (l : List Node) (h : Traversal m head l)
    (hsent : sentinel ∉ head :: l) :
    (dlinkedlist_iterator_get m head hs sentinel first last).1.end_
        (dlinkedlist_iterator_get m head hs sentinel first last).2 =
      (sentinel, (dlinkedlist_iterator_get m head hs sentinel first last).2) ∧
    ¬ Reach (dlinkedlist_iterator_get m head hs sentinel first last).2.1 head sentinel ∧
    (∀ n,
      (nextItems (dlinkedlist_iterator_get m head hs sentinel first last).1 n
        (dlinkedlist_iterator_get m head hs sentinel first last).2).2.2._current ≠ sentinel ∧
      (∀ x ∈ (nextItems (dlinkedlist_iterator_get m head hs sentinel first last).1 n
        (dlinkedlist_iterator_get m head hs sentinel first last).2).1, x ≠ sentinel) ∧
      (nextItems (dlinkedlist_iterator_get m head hs sentinel first last).1 n
        (dlinkedlist_iterator_get m head hs sentinel first last).2).2.2._current =
        (head :: l).getD (n % (l.length + 1)) head) ∧
    (nextItems (dlinkedlist_iterator_get m head hs sentinel first last).1 (l.length + 1)
      (dlinkedlist_iterator_get m head hs sentinel first last).2).1 = l ++ [head] := by
  have t := traversal_get h hs hsent first last
  have hmap := seg_map_iterate l head head t.1
  have hper := seg_iterate l head head t.1
  refine ⟨rfl, fun r => hsent ((reach_iff_mem t sentinel).1 r), ?_, ?_⟩
  · intro n
    rw [nextItems_fresh h hs hsent first last n]
    refine ⟨iterate_ne_sentinel t hsent n, ?_, ?_⟩
    · intro x hx
      obtain ⟨j, -, rfl⟩ := List.mem_map.1 hx
      exact iterate_ne_sentinel t hsent (j + 1)
    · show ((dlinkedlist_iterator_get m head hs sentinel first last).2.1.next)^[n] head = _
      rw [iterate_mod hper n]
      have hlt : n % (l.length + 1) < l.length + 1 := Nat.mod_lt _ (Nat.succ_pos _)
      cases hr : n % (l.length + 1) with
      | zero => rfl
      | succ j =>
        rw [List.getD_cons_succ, seg_getD head l head head j t.1 (by omega)]
  · rw [nextItems_fresh h hs hsent first last (l.length + 1)]
    show (List.range (l.length + 1)).map _ = _
    rw [List.range_succ, List.map_append, hmap, List.map_singleton, hper]

/-- C29 at work: on the list `2, 3` at head `1` the third advance returns the head. -/
theorem C29_iterator_never_reaches_end_witness :
    (nextItems iter23.1 ([2, 3].length + 1) iter23.2).1 = [2, 3] ++ [1] :=
  (C29_iterator_never_reaches_end mem23 1 none 9 0 0 [2, 3] (by decide) (by decide)).2.2.2

/-- C27: for a list iterator, advance-backward moves the cursor to `current->prev` and
returns it when the cursor is not the head, and leaves the cursor where it is and returns
the head when the cursor is the head; hence on a freshly obtained iterator, whose cursor
is the head, every `iterator_item_prev` call returns the head and leaves the iterator as
it is, and no call returns an element of the list, its last element included. -/
theorem C27_iterator_backward (m : Mem) (head : Node) (hs : Option Nat) (sentinel : Node)
    (first last : Nat) :
    (∀ (mm : Mem) (it : iterator_dlinkedlist), it._current ≠ it._head →
      iterator_item_prev (some (dlinkedlist_iterator_get m head hs sentinel first last).1)
          (mm, it) =
        (mm.prev it._current, (mm, ⟨mm.prev it._current, it._head, it._tail⟩))) ∧
    (∀ (mm : Mem) (it : iterator_dlinkedlist), it._current = it._head →
      iterator_item_prev (some (dlinkedlist_iterator_get m head hs sentinel first last).1)
          (mm, it) = (it._head, (mm, it))) ∧
    (∀ n, prevItems (dlinkedlist_iterator_get m head hs sentinel first last).1 n
        (dlinkedlist_iterator_get m head hs sentinel first last).2 =
      (List.replicate n head, (dlinkedlist_iterator_get m head hs sentinel first last).2)) ∧
    (∀ l, Traversal m head l → ∀ n,
      ∀ x ∈ (prevItems (dlinkedlist_iterator_get m head hs sentinel first last).1 n
        (dlinkedlist_iterator_get m head hs sentinel first last).2).1, x ∉ l) := by
  have hfix : iterator_item_prev
      (some (dlinkedlist_iterator_get m head hs sentinel first last).1)
      (dlinkedlist_iterator_get m head hs sentinel first last).2 =
      (head, (dlinkedlist_iterator_get m head hs sentinel first last).2) := by
    show iterator_item_prev _ ((dlinkedlist_iterator_get m head hs sentinel first last).2.1,
      (⟨head, head, sentinel⟩ : iterator_dlinkedlist)) = _
    rw [get_item_prev]
    simp
    rfl
  have hrep : ∀ n, prevItems (dlinkedlist_iterator_get m head hs sentinel first last).1 n
      (dlinkedlist_iterator_get m head hs sentinel first last).2 =
      (List.replicate n head, (dlinkedlist_iterator_get m head hs sentinel first last).2) := by
    intro n
    induction n with
    | zero => rfl
    | succ n ih => simp only [prevItems, hfix, ih, List.replicate_succ]
  refine ⟨?_, ?_, hrep, ?_⟩
  · intro mm it hc
    rw [get_item_prev]
    simp [hc]
  · intro mm it hc
    rw [get_item_prev]
    simp [hc]
  · intro l h n x hx
    rw [hrep n] at hx
    obtain rfl := List.eq_of_mem_replicate hx
    exact (List.nodup_cons.1 h.2).1

/-- C27 at work: three calls of `iterator_item_prev` on the fresh iterator of the list
`2, 3` at head `1` return the head each time. -/
theorem C27_iterator_backward_witness :
    ∀ x ∈ (prevItems iter23.1 3 iter23.2).1, x ∉ [2, 3] :=
  (C27_iterator_backward mem23 1 none 9 0 0).2.2.2 [2, 3] (by decide) 3

/-- C21, the code at the failing input: on the list `2, 3` at head `1`, with the sentinel
tail at address `9`, two advances put the cursor on the last element `3`; the next
advance returns the head `1` and not the sentinel `9`, which is what the end resolver and
`iterator_item_end` return. -/
theorem C21_next_at_last_returns_head :
    Traversal mem23 1 [2, 3] ∧
    (nextItems iter23.1 2 iter23.2).1 = [2, 3] ∧
    (nextItems iter23.1 2 iter23.2).2.2._current = 3 ∧
    (iterator_item_next (some iter23.1) (nextItems iter23.1 2 iter23.2).2).1 = 1 ∧
    (iterator_item_next (some iter23.1) (nextItems iter23.1 2 iter23.2).2).1 ≠
      (iter23.1.end_ iter23.2).1 ∧
    (iter23.1.end_ iter23.2).1 = 9 ∧
    (iterator_item_end (some iter23.1) iter23.2).1 = 9 := by
  decide

/-- C23, the code on every input: `dlinkedlist_iterator_get` assigns neither `_first` nor
`_last`, which keep the values the allocated block holds; `iterator_item_begin` then
returns the list head, and `iterator_item_end` the sentinel tail, only when those values
are `NULL`.  With the block holding `7` and `8` there, on the list at head `1` with the
sentinel at `9`, they return `7` and `8`. -/
theorem C23_iterator_get_cache_unassigned (m : Mem) (head : Node) (hs : Option Nat)
    (sentinel : Node) (first last : Nat) :
    (dlinkedlist_iterator_get m head hs sentinel first last).1._first = first ∧
    (dlinkedlist_iterator_get m head hs sentinel first last).1._last = last ∧
    (iterator_item_begin (some (dlinkedlist_iterator_get m head hs sentinel first last).1)
      (dlinkedlist_iterator_get m head hs sentinel first last).2).1 =
        (if first ≠ NULL then first else head) ∧
    (iterator_item_end (some (dlinkedlist_iterator_get m head hs sentinel first last).1)
      (dlinkedlist_iterator_get m head hs sentinel first last).2).1 =
        (if last ≠ NULL then last else sentinel) ∧
    (iterator_item_begin (some iter23garbage.1) iter23garbage.2).1 = 7 ∧
    (iterator_item_end (some iter23garbage.1) iter23garbage.2).1 = 8 ∧
    iter23garbage.2.2._head = 1 ∧ iter23garbage.2.2._tail = 9 := by
  refine ⟨rfl, rfl, ?_, ?_, by decide, by decide, rfl, rfl⟩
  · by_cases hf : first = NULL <;>
      simp [iterator_item_begin, dlinkedlist_iterator_get, listBinding,
        __dlinkedlist_iterator_begin, hf]
  · by_cases hf : last = NULL <;>
      simp [iterator_item_end, dlinkedlist_iterator_get, listBinding,
        __dlinkedlist_iterator_end, hf]

end DLinkedList
